import Mathlib

/-
Verification of the semantic chunking engine in
src/chunker/sentence_based_chunker.py (class SentenceBasedChunker) and
src/local_translation/utils/language_utils.py.

Strings are modelled as `List Char`.  Python string primitives
(strip, rstrip, split, replace, the two regular expressions used by the
chunker) are shallowly embedded as executable Lean functions; scanners
that consume a variable number of characters per step take an explicit
fuel argument (always instantiated with the string length, which is
shown to be sufficient).
-/

namespace LocalTranslation

abbrev Str := List Char

/-- Python `str.isspace` / `\s` for the ASCII whitespace characters
(space, tab, newline, carriage return, vertical tab, form feed). -/
def pyIsSpace (c : Char) : Bool :=
  c = ' ' || c = '\t' || c = '\n' || c = '\r' || c = '\x0b' || c = '\x0c'

/-- Python `str.lstrip()`. -/
def lstrip (s : Str) : Str := s.dropWhile pyIsSpace

/-- Python `str.rstrip()`. -/
def rstrip (s : Str) : Str := (s.reverse.dropWhile pyIsSpace).reverse

/-- Python `str.strip()`. -/
def pyStrip (s : Str) : Str := lstrip (rstrip s)

/-- Python `text.split(sep)` for a single-character separator
(used as `protected.split('\n')` at line 151 of the source). -/
def pySplit (sep : Char) : Str → List Str
  | [] => [[]]
  | c :: cs =>
    match pySplit sep cs with
    | h :: t => if c = sep then [] :: h :: t else (c :: h) :: t
    | [] => [[c]]

/-- Python `pat in s` (substring containment). -/
def containsSub (pat : Str) : Str → Bool
  | [] => pat.isEmpty
  | c :: cs => pat.isPrefixOf (c :: cs) || containsSub pat cs

/-- Fuel-driven body of Python `str.replace`: replaces the leftmost
occurrence of `pat` and continues after it (non-overlapping, left to
right).  Fuel `s.length` is always sufficient for non-empty `pat`. -/
def replaceAllF (pat rep : Str) : Nat → Str → Str
  | 0, s => s
  | _ + 1, [] => []
  | f + 1, c :: cs =>
    if pat.isPrefixOf (c :: cs) then
      rep ++ replaceAllF pat rep f (List.drop (pat.length - 1) cs)
    else
      c :: replaceAllF pat rep f cs

/-- Python `s.replace(pat, rep)` (for non-empty `pat`). -/
def replaceAll (pat rep s : Str) : Str := replaceAllF pat rep s.length s

/-! ### Abbreviation guard (lines 53-79 of sentence_based_chunker.py)

The pattern-based protection is
`re.sub(r'\b([A-Z]\.|[A-Z][a-z]+\.|[a-z]+\.)', <dot ↦ sentinel>, text)`.
We embed the regex engine's left-to-right scan directly: at every
position where a word boundary `\b` holds, the three alternatives are
tried in order (Python alternation is leftmost, and since each
alternative is a run of letters followed by a literal dot, the greedy
character classes need no backtracking).  The matched token has its
final `.` replaced by the sentinel `__PROTECTED_DOT__` and the scan
resumes after the token. -/

/-- The sentinel used by `protect_abbreviations` / `restore_abbreviations`. -/
def sentinel : Str := "__PROTECTED_DOT__".toList

/-- Python `\w` (word character) as used by `\b`.  Python's `re` treats
all Unicode letters/digits and the underscore as word characters; the
ASCII cases are exact and all non-ASCII characters are treated as word
characters (the inputs this program handles contain no non-ASCII
punctuation adjacent to the ASCII-only protection patterns). -/
def isWordChar (c : Char) : Bool :=
  c.isAlpha || c.isDigit || c = '_' || decide (0x80 ≤ c.toNat)

/-- `\b` before the current character `c`: the word-status of the
previous character (`false` at the very start of the string, so that
`\b` holds at the start exactly when `c` is a word character) differs
from that of `c`. -/
def atBoundary (prevWord : Bool) (c : Char) : Bool :=
  prevWord != isWordChar c

/-- Anchored match of `([A-Z]\.|[A-Z][a-z]+\.|[a-z]+\.)` (alternatives
tried left to right, character classes greedy — no backtracking can
help, since each alternative is a run of letters followed by a literal
dot): returns the letters of the matched token (without the final dot)
and the rest of the string after the dot. -/
def tryMatch : Str → Option (Str × Str)
  | [] => none
  | c :: cs =>
    if c.isUpper then
      if cs.head? = some '.' then some ([c], cs.tail)
      else if cs.takeWhile Char.isLower = [] then none
      else if (cs.dropWhile Char.isLower).head? = some '.' then
        some (c :: cs.takeWhile Char.isLower, (cs.dropWhile Char.isLower).tail)
      else none
    else if c.isLower then
      if ((c :: cs).dropWhile Char.isLower).head? = some '.' then
        some ((c :: cs).takeWhile Char.isLower, ((c :: cs).dropWhile Char.isLower).tail)
      else none
    else none

/-- Output alphabet of the protection scan: an unmatched character, or
a protected token (its letters; the final dot becomes the sentinel). -/
inductive Tok where
  | ch (c : Char)
  | prot (letters : Str)
deriving DecidableEq, Repr

/-- Rendering of the scan output: a protected token contributes its
letters followed by the sentinel. -/
def renderTok : Tok → Str
  | .ch c => [c]
  | .prot letters => letters ++ sentinel

def render (ts : List Tok) : Str := (ts.map renderTok).flatten

/-- Fuel-driven scan of `re.sub` for the protection pattern.  `prevWord`
is the word-status of the character before the scan position (for `\b`);
after a protected token the previous character is the matched dot (not a
word character). -/
def subA : Nat → Bool → Str → List Tok
  | 0, _, s => s.map .ch
  | _ + 1, _, [] => []
  | f + 1, prevWord, c :: cs =>
    if atBoundary prevWord c then
      match tryMatch (c :: cs) with
      | some (letters, rest) => .prot letters :: subA f (isWordChar '.') rest
      | none => .ch c :: subA f (isWordChar c) cs
    else
      .ch c :: subA f (isWordChar c) cs

/-- The regex part of `protect_abbreviations` (line 75 of the source). -/
def regexProtect (s : Str) : Str := render (subA s.length false s)

/-- `SentenceBasedChunker.protect_abbreviations` (lines 68-76).
`abbrs` is the abbreviation set as the sorted (longest-first) list the
source builds with `sorted(self.abbreviation_set, key=len, reverse=True)`;
each abbreviation is replaced by itself with `.` replaced by the
sentinel, then the pattern-based protection runs. -/
def protect_abbreviations (abbrs : List Str) (text : Str) : Str :=
  regexProtect (abbrs.foldl (fun t a => replaceAll a (replaceAll ['.'] sentinel a) t) text)

/-- `SentenceBasedChunker.restore_abbreviations` (lines 78-79). -/
def restore_abbreviations (text : Str) : Str := replaceAll sentinel ['.'] text

/-- The scan at its canonical fuel (the string length, always enough). -/
def subC (b : Bool) (s : Str) : List Tok := subA s.length b s

/-! ### Sentence segmentation (`split_sentences`, lines 147-211)

The paragraph-internal split is
`re.split(r'([.!?。！？](?![0-9A-Za-z]))\s*', paragraph.strip())`,
whose result list always alternates text, captured terminator, text, …
and has odd length; we represent it as a list of (text, terminator)
pairs plus the final lone text, matching the indexing
`for j in range(0, len(sentences), 2)` of the source. -/

/-- Membership in the class `[.!?。！？]`. -/
def isTerminator (c : Char) : Bool :=
  c = '.' || c = '!' || c = '?' || c = '。' || c = '！' || c = '？'

/-- `[0-9A-Za-z]` (the negative lookahead's class). -/
def isAlnumLatin (c : Char) : Bool := c.isAlpha || c.isDigit

/-- The negative lookahead `(?![0-9A-Za-z])`: true when the next
character exists and is in the class (so the lookahead fails). -/
def lookaheadAlnum : Str → Bool
  | d :: _ => isAlnumLatin d
  | [] => false

/-- Fuel-driven scan for the terminator split; `acc` holds the current
text segment reversed.  The `\s*` after the captured terminator is
consumed and dropped. -/
def splitTermF : Nat → Str → Str → List (Str × Str) × Str
  | 0, acc, s => ([], acc.reverse ++ s)
  | _ + 1, acc, [] => ([], acc.reverse)
  | f + 1, acc, c :: cs =>
    if isTerminator c && !lookaheadAlnum cs then
      let r := splitTermF f [] (cs.dropWhile pyIsSpace)
      ((acc.reverse, [c]) :: r.1, r.2)
    else
      splitTermF f (c :: acc) cs

def splitTerm (s : Str) : List (Str × Str) × Str := splitTermF s.length [] s

/-- The hard-coded heading tokens of lines 191 and 204. -/
def HEADINGS : List Str :=
  ["Phones".toList, "Updates".toList, "Samsung".toList, "One UI".toList]

/-- Python `sw[-1] = f(sw[-1])`. -/
def updateLast (f : Str × Str → Str × Str) : List (Str × Str) → List (Str × Str)
  | [] => []
  | [x] => [f x]
  | x :: xs => x :: updateLast f xs

/-- Python `n.endswith('\n\n')`. -/
def endsWith2NL (n : Str) : Bool :=
  match n.reverse with
  | '\n' :: '\n' :: _ => true
  | _ => false

/-- Lines 191-196: before appending a heading-like sentence, make sure
the previous sentence's trailing whitespace ends in a newline. -/
def headingFix (sw : List (Str × Str)) : List (Str × Str) :=
  updateLast (fun p => if endsWith2NL p.2 then p else (p.1, p.2 ++ ['\n'])) sw

/-- Lines 180-198: the per-fragment merge/append logic, run after
`current_sentence` has been extended.  Returns the updated sentence
list and the updated `current_sentence`.  Note two faithful quirks of
the source: on the merge path `current_sentence` is NOT reset, and on
the short-abbreviation path (`continue`) nothing changes. -/
def jStep (sw : List (Str × Str)) (current : Str) : List (Str × Str) × Str :=
  if (pyStrip current).length < 20 ∧ sw ≠ [] then
    if (pyStrip current).getLast? = some '.' ∧ (pyStrip current).length ≤ 3 then
      (sw, current)
    else
      (updateLast (fun p => (p.1 ++ current, p.2)) sw, current)
  else
    if pyStrip current ≠ [] then
      ((if pyStrip current ∈ HEADINGS then headingFix sw else sw) ++ [(pyStrip current, [])], [])
    else (sw, [])

/-- The loop body over the (text, terminator) pairs (lines 166-174 with
the trailing 176-198 logic). -/
def jLoopPairs : List (Str × Str) → List (Str × Str) → Str → List (Str × Str) × Str
  | [], sw, current => (sw, current)
  | (part, punct) :: ps, sw, current =>
    let current₁ := if pyStrip part ≠ [] then current ++ part ++ punct else current ++ punct
    let r := jStep sw current₁
    jLoopPairs ps r.1 r.2

/-- The whole `for j` loop: all pairs, then the final lone text
(`else: current_sentence += sentences[j]`). -/
def jLoop (pairs : List (Str × Str)) (lastText : Str) (sw : List (Str × Str)) :
    List (Str × Str) :=
  let r := jLoopPairs pairs sw []
  (jStep r.1 (r.2 ++ lastText)).1

/-- Lines 154-207: one paragraph.  A blank paragraph contributes an
empty sentence carrying a newline; otherwise the paragraph is stripped,
split, run through the `j` loop, and the last emitted sentence gets a
newline appended (a double newline for headings). -/
def processParagraph (sw : List (Str × Str)) (paragraph : Str) : List (Str × Str) :=
  if pyStrip paragraph = [] then sw ++ [([], ['\n'])]
  else
    let st := splitTerm (pyStrip paragraph)
    let sw₁ := jLoop st.1 st.2 sw
    updateLast (fun p =>
      if p.1 ∈ HEADINGS then (p.1, p.2 ++ ['\n', '\n']) else (p.1, p.2 ++ ['\n'])) sw₁

/-- `SentenceBasedChunker.split_sentences` (lines 147-211): protect,
split into paragraphs at newlines, segment each paragraph, restore. -/
def split_sentences (abbrs : List Str) (text : Str) : List (Str × Str) :=
  let protectedText := protect_abbreviations abbrs text
  let paragraphs := pySplit '\n' protectedText
  let sw := paragraphs.foldl processParagraph []
  sw.map (fun p => (restore_abbreviations p.1, p.2))

/-! ### Language detection (`detect_language`, lines 81-104, identical
to `local_translation/utils/language_utils.py` lines 6-22) -/

/-- `[぀-ゟ゠-ヿ一-龯]` (hiragana, katakana,
CJK ideographs, with the source's exact 0x9FAF upper bound). -/
def isJapaneseChar (c : Char) : Bool :=
  (0x3040 ≤ c.toNat && c.toNat ≤ 0x309F) ||
  (0x30A0 ≤ c.toNat && c.toNat ≤ 0x30FF) ||
  (0x4E00 ≤ c.toNat && c.toNat ≤ 0x9FAF)

/-- Number of matches of `re.findall` for the Japanese ranges. -/
def japaneseCount (text : Str) : Nat := (text.filter isJapaneseChar).length

/-- Number of matches for `[a-zA-Z぀-ゟ゠-ヿ一-龯]`. -/
def letterCount (text : Str) : Nat :=
  (text.filter (fun c => c.isAlpha || isJapaneseChar c)).length

/-- `detect_language`: the float comparison
`len(japanese)/len(total) >= 0.3` is embedded as the exact rational
comparison `10*jp ≥ 3*total` (for the integer counts involved the two
agree). -/
def detect_language (text : Str) : Str :=
  if letterCount text = 0 then "en".toList
  else if 3 * letterCount text ≤ 10 * japaneseCount text then "ja".toList
  else "en".toList

/-! ### Topic boundary oracle (`is_topic_shift`, lines 213-264)

The HTTP interaction is abstracted as the outcome of the
`requests.post` + `raise_for_status` + `response.json()` +
`result['choices'][0]['message']['content']` sequence:
  * `requestFailure`: any `requests.exceptions.RequestException` —
    connection error, timeout, `HTTPError` from `raise_for_status`, or
    an undecodable body (requests' `JSONDecodeError` subclasses
    `RequestException`); caught by the `except` clause (lines 261-264).
  * `okMissingStructure`: a decodable JSON body that lacks
    `choices[0].message.content` — the subscript raises `KeyError`
    (or `IndexError`/`TypeError`), which the function does NOT catch.
  * `okContent`: a well-formed body with the assistant text. -/

inductive OracleResponse where
  | requestFailure
  | okMissingStructure
  | okContent (content : Str)

inductive PyError where
  | keyError
deriving DecidableEq, Repr

/-- Python `str.lower()` restricted to ASCII case mapping (the
characters this program compares are ASCII or Japanese, which
`lower()` leaves unchanged). -/
def pyLower (s : Str) : Str := s.map Char.toLower

/-- `SentenceBasedChunker.is_topic_shift` (lines 213-264). -/
def is_topic_shift (resp : OracleResponse) (current_text new_sentence : Str) :
    Except PyError Bool :=
  let language := detect_language (current_text ++ [' '] ++ new_sentence)
  match resp with
  | .requestFailure => .ok false
  | .okMissingStructure => .error .keyError
  | .okContent content =>
    let response_text := pyLower (pyStrip content)
    if language = "ja".toList then .ok (containsSub "話題転換".toList response_text)
    else .ok (containsSub "topic shift".toList response_text)

/-! ### Chunk assembler (`sentence_based_chunk`, lines 266-339)

`current_chunk` is represented as the list of the sentence strings
appended to it (the Python string is its concatenation), so that the
number of sentences per chunk is visible; `chunks` likewise holds the
groups.  `calls` records the arguments of every `is_topic_shift`
invocation, in order.  The topic oracle is a parameter
`oracle : Str → Str → Bool` (the boolean `is_topic_shift` returns). -/

structure ChunkCfg where
  max_chunk_size : Nat
  min_chunk_size : Nat
deriving Repr

structure AsmState where
  chunks : List (List Str)
  cur : List Str
  scount : Nat
  calls : List (Str × Str)
deriving Repr

def curStr (st : AsmState) : Str := st.cur.flatten

/-- One iteration of the `for sentence, newline` loop (lines 286-333).
The float tolerance check of line 312,
`len(current_chunk + sentence_with_newline) <= self.max_chunk_size * 1.2`,
is embedded as the exact comparison `10*len ≤ 12*max`. -/
def chunkStep (cfg : ChunkCfg) (oracle : Str → Str → Bool) (st : AsmState)
    (sn : Str × Str) : AsmState :=
  let swn := sn.1 ++ sn.2
  let count := st.scount + 1
  if cfg.max_chunk_size < swn.length then
    if curStr st ≠ [] then
      { chunks := st.chunks ++ [st.cur, [swn]], cur := [], scount := 0, calls := st.calls }
    else
      { chunks := st.chunks ++ [[swn]], cur := [], scount := count, calls := st.calls }
  else
    -- lines 299-302: `combined_size` is `len(current_chunk) + len(swn)`
    -- when the accumulator is non-empty and `len(swn)` otherwise; an
    -- empty accumulator has length 0, so both branches give this value
    let combined := (curStr st).length + swn.length
    if cfg.max_chunk_size < combined then
      if cfg.min_chunk_size ≤ (curStr st).length then
        { chunks := st.chunks ++ [st.cur], cur := [swn], scount := 1, calls := st.calls }
      else if 10 * ((curStr st).length + swn.length) ≤ 12 * cfg.max_chunk_size then
        { chunks := st.chunks, cur := st.cur ++ [swn], scount := count, calls := st.calls }
      else
        { chunks := st.chunks ++ [st.cur], cur := [swn], scount := 1, calls := st.calls }
    else
      if curStr st ≠ [] then
        if cfg.min_chunk_size ≤ (curStr st).length ∧ 2 ≤ count then
          if oracle (curStr st) sn.1 then
            { chunks := st.chunks ++ [st.cur], cur := [swn], scount := 1,
              calls := st.calls ++ [(curStr st, sn.1)] }
          else
            { chunks := st.chunks, cur := st.cur ++ [swn], scount := count,
              calls := st.calls ++ [(curStr st, sn.1)] }
        else
          { chunks := st.chunks, cur := st.cur ++ [swn], scount := count, calls := st.calls }
      else
        { chunks := st.chunks, cur := [swn], scount := count, calls := st.calls }

def initState : AsmState := ⟨[], [], 0, []⟩

def chunkRun (cfg : ChunkCfg) (oracle : Str → Str → Bool) (abbrs : List Str)
    (text : Str) : AsmState :=
  (split_sentences abbrs text).foldl (chunkStep cfg oracle) initState

/-- Lines 335-337: flush the final accumulator. -/
def chunkFinal (st : AsmState) : List (List Str) :=
  if curStr st ≠ [] then st.chunks ++ [st.cur] else st.chunks

def chunkGroups (cfg : ChunkCfg) (oracle : Str → Str → Bool) (abbrs : List Str)
    (text : Str) : List (List Str) :=
  chunkFinal (chunkRun cfg oracle abbrs text)

/-- `SentenceBasedChunker.sentence_based_chunk` (lines 266-339): every
emitted chunk is the right-stripped concatenation of its group. -/
def sentence_based_chunk (cfg : ChunkCfg) (oracle : Str → Str → Bool)
    (abbrs : List Str) (text : Str) : List Str :=
  (chunkGroups cfg oracle abbrs text).map (fun g => rstrip g.flatten)

/-- The `is_topic_shift` call trace of one run. -/
def chunkCalls (cfg : ChunkCfg) (oracle : Str → Str → Bool) (abbrs : List Str)
    (text : Str) : List (Str × Str) :=
  (chunkRun cfg oracle abbrs text).calls

/-- Joining the lines with newlines recovers the string. -/
def joinNL : List Str → Str
  | [] => []
  | [l] => l
  | l :: ls => l ++ '\n' :: joinNL ls

/-- Nonemptiness of `text + trailingWhitespace` for a sentence pair. -/
def NEp (p : Str × Str) : Prop := p.1 ++ p.2 ≠ []

/-! ## The claims -/

/-- Concatenation of `text + trailingWhitespace` over a segmenter output. -/
def concatSents (l : List (Str × Str)) : Str := (l.map (fun p => p.1 ++ p.2)).flatten

/-! ## Theorems -/

theorem replaceAllF_fuel (pat rep : Str) (_hp : pat ≠ []) :
    ∀ f g s, s.length ≤ f → s.length ≤ g →
      replaceAllF pat rep f s = replaceAllF pat rep g s := by
  intro f
  induction f with
  | zero =>
    intro g s hf _
    have : s = [] := List.length_eq_zero.mp (Nat.le_zero.mp hf)
    subst this
    cases g <;> simp [replaceAllF]
  | succ f ih =>
    intro g s hf hg
    cases s with
    | nil => cases g <;> simp [replaceAllF]
    | cons c cs =>
      cases g with
      | zero => simp at hg
      | succ g =>
        simp only [replaceAllF]
        have hcs : cs.length ≤ f := by simpa using hf
        have hcsg : cs.length ≤ g := by simpa using hg
        by_cases h : pat.isPrefixOf (c :: cs) = true
        · rw [if_pos h, if_pos h]
          have hlen : (List.drop (pat.length - 1) cs).length ≤ cs.length := by
            simp [List.length_drop]
          rw [ih g (List.drop (pat.length - 1) cs) (le_trans hlen hcs) (le_trans hlen hcsg)]
        · rw [if_neg h, if_neg h, ih g cs hcs hcsg]

theorem replaceAll_nil (pat rep : Str) : replaceAll pat rep [] = [] := rfl

theorem replaceAll_cons_neg (pat rep : Str) (c : Char) (cs : Str)
    (hp : pat ≠ []) (h : ¬ pat.isPrefixOf (c :: cs)) :
    replaceAll pat rep (c :: cs) = c :: replaceAll pat rep cs := by
  unfold replaceAll
  simp only [List.length_cons, replaceAllF]
  rw [if_neg h, replaceAllF_fuel pat rep hp cs.length cs.length cs le_rfl le_rfl]

theorem replaceAll_cons_pos (pat rep : Str) (c : Char) (cs : Str)
    (hp : pat ≠ []) (h : pat.isPrefixOf (c :: cs)) :
    replaceAll pat rep (c :: cs) =
      rep ++ replaceAll pat rep (List.drop (pat.length - 1) cs) := by
  unfold replaceAll
  simp only [List.length_cons, replaceAllF]
  have hlen : (List.drop (pat.length - 1) cs).length ≤ cs.length := by
    simp [List.length_drop]
  rw [if_pos h, replaceAllF_fuel pat rep hp cs.length (List.drop (pat.length - 1) cs).length
    (List.drop (pat.length - 1) cs) hlen le_rfl]

/-- If `pat` does not occur in `s`, Python replace leaves `s` unchanged. -/
theorem replaceAll_of_not_contains (pat rep : Str) (hp : pat ≠ []) :
    ∀ s, containsSub pat s = false → replaceAll pat rep s = s := by
  intro s
  induction s with
  | nil => intro _; rfl
  | cons c cs ih =>
    intro h
    simp only [containsSub, Bool.or_eq_false_iff] at h
    rw [replaceAll_cons_neg pat rep c cs hp (by simp [h.1]), ih h.2]

/-! #### Structural lemmas about the protection scan -/

theorem render_nil : render [] = [] := rfl

theorem render_cons (t : Tok) (ts : List Tok) :
    render (t :: ts) = renderTok t ++ render ts := by
  simp [render]

theorem render_append (a b : List Tok) : render (a ++ b) = render a ++ render b := by
  simp [render]

theorem render_map_ch (s : Str) : render (s.map .ch) = s := by
  induction s with
  | nil => rfl
  | cons c cs ih => simp [render, renderTok] at ih ⊢; exact ih

theorem sentinel_word : ∀ c ∈ sentinel, isWordChar c = true := by decide

theorem sentinel_ne_nil : sentinel ≠ [] := by decide

theorem isAlpha_ne_underscore {c : Char} (h : c.isAlpha = true) : c ≠ '_' := by
  intro he
  rw [he] at h
  exact absurd h (by decide)

theorem isWordChar_of_isAlpha {c : Char} (h : c.isAlpha = true) : isWordChar c = true := by
  simp [isWordChar, h]

theorem isAlpha_of_isUpper {c : Char} (h : c.isUpper = true) : c.isAlpha = true := by
  simp [Char.isAlpha, h]

theorem isAlpha_of_isLower {c : Char} (h : c.isLower = true) : c.isAlpha = true := by
  simp [Char.isAlpha, h]

theorem not_letter_of_not_word {c : Char} (h : isWordChar c = false) :
    c.isUpper = false ∧ c.isLower = false := by
  have hA : c.isAlpha = false := by
    revert h
    unfold isWordChar
    cases c.isAlpha <;> simp
  constructor
  · revert hA
    unfold Char.isAlpha
    cases c.isUpper <;> simp
  · revert hA
    unfold Char.isAlpha
    cases c.isLower <;> simp

theorem takeWhile_run {p : Char → Bool} :
    ∀ (u : Str) (e : Char) (t : Str), (∀ x ∈ u, p x = true) → p e = false →
      (u ++ e :: t).takeWhile p = u := by
  intro u
  induction u with
  | nil => intro e t _ he; simp [List.takeWhile, he]
  | cons a as ih =>
    intro e t hu he
    have ha : p a = true := hu a (by simp)
    rw [List.cons_append, List.takeWhile_cons_of_pos ha,
      ih e t (fun x hx => hu x (by simp [hx])) he]

theorem dropWhile_run {p : Char → Bool} :
    ∀ (u : Str) (e : Char) (t : Str), (∀ x ∈ u, p x = true) → p e = false →
      (u ++ e :: t).dropWhile p = e :: t := by
  intro u
  induction u with
  | nil => intro e t _ he; simp [List.dropWhile, he]
  | cons a as ih =>
    intro e t hu he
    have ha : p a = true := hu a (by simp)
    rw [List.cons_append, List.dropWhile_cons_of_pos ha]
    exact ih e t (fun x hx => hu x (by simp [hx])) he

/-- Full specification of a successful anchored match: the input
decomposes as the letters, the dot, and the rest, and the letters have
one of the three alternatives' shapes. -/
theorem tryMatch_spec : ∀ {s L rest : Str}, tryMatch s = some (L, rest) →
    s = L ++ '.' :: rest ∧ L ≠ [] ∧ (∀ c ∈ L, c.isAlpha = true) ∧
      ((∃ c, L = [c] ∧ c.isUpper = true) ∨
       (∃ c ls, L = c :: ls ∧ c.isUpper = true ∧ ls ≠ [] ∧ ∀ x ∈ ls, x.isLower = true) ∨
       (∀ x ∈ L, x.isLower = true)) := by
  intro s L rest h
  match s with
  | [] => simp [tryMatch] at h
  | c :: cs =>
    simp only [tryMatch] at h
    by_cases hU : c.isUpper = true
    · rw [if_pos hU] at h
      by_cases hdot : cs.head? = some '.'
      · rw [if_pos hdot] at h
        cases cs with
        | nil => simp at hdot
        | cons d ds =>
          have hd : d = '.' := by simpa using hdot
          subst hd
          obtain ⟨hL, hr⟩ : [c] = L ∧ ds = rest := by simpa using h
          subst hL; subst hr
          refine ⟨by simp, by simp, ?_, Or.inl ⟨c, rfl, hU⟩⟩
          intro x hx
          simp at hx
          subst hx
          exact isAlpha_of_isUpper hU
      · rw [if_neg hdot] at h
        by_cases hemp : cs.takeWhile Char.isLower = []
        · rw [if_pos hemp] at h; exact absurd h (by simp)
        · rw [if_neg hemp] at h
          by_cases hdd : (cs.dropWhile Char.isLower).head? = some '.'
          · rw [if_pos hdd] at h
            obtain ⟨hL, hr⟩ : c :: cs.takeWhile Char.isLower = L ∧
                (cs.dropWhile Char.isLower).tail = rest := by simpa using h
            cases hdw : cs.dropWhile Char.isLower with
            | nil => rw [hdw] at hdd; simp at hdd
            | cons e es =>
              have he : e = '.' := by rw [hdw] at hdd; simpa using hdd
              subst he
              have hrest : es = rest := by rw [hdw] at hr; simpa using hr
              subst hrest
              have hcs : cs = cs.takeWhile Char.isLower ++ '.' :: es := by
                conv_lhs => rw [← List.takeWhile_append_dropWhile (p := Char.isLower) (l := cs)]
                rw [hdw]
              have hls : ∀ x ∈ cs.takeWhile Char.isLower, x.isLower = true := by
                intro x hx
                exact List.mem_takeWhile_imp hx
              subst hL
              refine ⟨by rw [List.cons_append]; rw [← hcs], by simp, ?_, ?_⟩
              · intro x hx
                rcases List.mem_cons.mp hx with h1 | h2
                · subst h1; exact isAlpha_of_isUpper hU
                · exact isAlpha_of_isLower (hls x h2)
              · exact Or.inr (Or.inl ⟨c, cs.takeWhile Char.isLower, rfl, hU, hemp, hls⟩)
          · rw [if_neg hdd] at h; exact absurd h (by simp)
    · rw [if_neg hU] at h
      by_cases hLo : c.isLower = true
      · rw [if_pos hLo] at h
        by_cases hdd : (((c :: cs)).dropWhile Char.isLower).head? = some '.'
        · rw [if_pos hdd] at h
          obtain ⟨hL, hr⟩ : (c :: cs).takeWhile Char.isLower = L ∧
              ((c :: cs).dropWhile Char.isLower).tail = rest := by simpa using h
          cases hdw : (c :: cs).dropWhile Char.isLower with
          | nil => rw [hdw] at hdd; simp at hdd
          | cons e es =>
            have he : e = '.' := by rw [hdw] at hdd; simpa using hdd
            subst he
            have hrest : es = rest := by rw [hdw] at hr; simpa using hr
            subst hrest
            have hsplit : c :: cs = L ++ '.' :: es := by
              conv_lhs => rw [← List.takeWhile_append_dropWhile (p := Char.isLower) (l := c :: cs)]
              rw [hdw, hL]
            have hls : ∀ x ∈ L, x.isLower = true := by
              intro x hx
              rw [← hL] at hx
              exact List.mem_takeWhile_imp hx
            have hLne : L ≠ [] := by
              intro he
              rw [← hL, List.takeWhile_cons_of_pos hLo] at he
              exact absurd he (by simp)
            exact ⟨hsplit, hLne, fun x hx => isAlpha_of_isLower (hls x hx), Or.inr (Or.inr hls)⟩
        · rw [if_neg hdd] at h; exact absurd h (by simp)
      · rw [if_neg hLo] at h; exact absurd h (by simp)

theorem tryMatch_not_letter {c : Char} (hU : c.isUpper = false) (hL : c.isLower = false)
    (cs : Str) : tryMatch (c :: cs) = none := by
  simp [tryMatch, hU, hL]

theorem tryMatch_rest_length {s L rest : Str} (h : tryMatch s = some (L, rest)) :
    rest.length + 2 ≤ s.length := by
  obtain ⟨hs, hL, -, -⟩ := tryMatch_spec h
  subst hs
  have h1 : 1 ≤ L.length := by
    cases L with
    | nil => exact absurd rfl hL
    | cons _ _ => simp
  simp only [List.length_append, List.length_cons]
  omega

theorem subA_nil : ∀ (f : Nat) (b : Bool), subA f b [] = [] := by
  intro f b
  cases f <;> rfl

theorem subA_fuel : ∀ (f : Nat) (g : Nat) (b : Bool) (s : Str),
    s.length ≤ f → s.length ≤ g → subA f b s = subA g b s := by
  intro f
  induction f with
  | zero =>
    intro g b s hf _
    have : s = [] := List.length_eq_zero.mp (Nat.le_zero.mp hf)
    subst this
    rw [subA_nil, subA_nil]
  | succ f ih =>
    intro g b s hf hg
    cases s with
    | nil => rw [subA_nil, subA_nil]
    | cons c cs =>
      cases g with
      | zero => simp at hg
      | succ g =>
        have hcs : cs.length ≤ f := by simpa using hf
        have hcsg : cs.length ≤ g := by simpa using hg
        simp only [subA]
        by_cases hb : atBoundary b c = true
        · rw [if_pos hb, if_pos hb]
          cases hm : tryMatch (c :: cs) with
          | none => dsimp only; rw [ih g (isWordChar c) cs hcs hcsg]
          | some pr =>
            obtain ⟨L, rest⟩ := pr
            dsimp only
            have hlen := tryMatch_rest_length hm
            simp only [List.length_cons] at hlen
            rw [ih g (isWordChar '.') rest (by omega) (by omega)]
        · rw [if_neg hb, if_neg hb, ih g (isWordChar c) cs hcs hcsg]

theorem subA_eq_subC {f : Nat} {b : Bool} {s : Str} (h : s.length ≤ f) :
    subA f b s = subC b s :=
  subA_fuel f s.length b s h le_rfl

theorem subC_nil (b : Bool) : subC b [] = [] := rfl

theorem isWordChar_dot : isWordChar '.' = false := by decide

theorem subC_cons_match {b : Bool} {c : Char} {cs L rest : Str}
    (hb : atBoundary b c = true) (hm : tryMatch (c :: cs) = some (L, rest)) :
    subC b (c :: cs) = .prot L :: subC false rest := by
  have hlen := tryMatch_rest_length hm
  simp only [List.length_cons] at hlen
  show subA (c :: cs).length b (c :: cs) = _
  simp only [List.length_cons, subA]
  rw [if_pos hb, hm]
  dsimp only
  rw [isWordChar_dot, subA_eq_subC (by omega)]

theorem subC_cons_ch {b : Bool} {c : Char} {cs : Str}
    (h : atBoundary b c = false ∨ tryMatch (c :: cs) = none) :
    subC b (c :: cs) = .ch c :: subC (isWordChar c) cs := by
  show subA (c :: cs).length b (c :: cs) = _
  simp only [List.length_cons, subA]
  rcases h with hb | hm
  · rw [if_neg (by simp [hb]), subA_eq_subC le_rfl]
  · by_cases hb : atBoundary b c = true
    · rw [if_pos hb, hm, subA_eq_subC le_rfl]
    · rw [if_neg hb, subA_eq_subC le_rfl]

theorem subC_allword (u : Str) (hu : ∀ c ∈ u, isWordChar c = true) (s : Str) :
    subC true (u ++ s) = u.map .ch ++ subC true s := by
  induction u with
  | nil => simp
  | cons c u' ih =>
    have hc : isWordChar c = true := hu c (by simp)
    have hb : atBoundary true c = false := by simp [atBoundary, hc]
    rw [List.cons_append, subC_cons_ch (Or.inl hb), hc,
      ih (fun x hx => hu x (by simp [hx]))]
    simp

theorem isPrefixOf_cons_iff {a b : Char} {as bs : Str} :
    (a :: as).isPrefixOf (b :: bs) = true ↔ a = b ∧ as.isPrefixOf bs = true := by
  simp [List.isPrefixOf]

theorem containsSub_of_isPrefixOf {pat s : Str} (h : pat.isPrefixOf s = true) :
    containsSub pat s = true := by
  cases s with
  | nil =>
    cases pat with
    | nil => rfl
    | cons _ _ => simp [List.isPrefixOf] at h
  | cons c cs => simp [containsSub, h]

theorem containsSub_append_right {pat t : Str} (h : containsSub pat t = true) :
    ∀ s, containsSub pat (s ++ t) = true := by
  intro s
  induction s with
  | nil => simpa using h
  | cons c s' ih => simp [containsSub, ih]

/-- If the sentinel is a prefix of the rendering of the scan of `s`,
then all characters of the sentinel were unmatched input characters:
the sentinel consists of word characters, so no `\b` can occur inside
it, and its first character `_` is not a letter so it cannot begin a
protected token. -/
theorem walk : ∀ (t : Str), (∀ c ∈ t, isWordChar c = true) →
    ∀ (b : Bool) (s : Str),
      (b = true ∨ ∀ c, t.head? = some c → c.isAlpha = false) →
      t.isPrefixOf (render (subC b s)) = true → t.isPrefixOf s = true := by
  intro t
  induction t with
  | nil => intro _ b s _ _; simp [List.isPrefixOf]
  | cons x t' ih =>
    intro ht b s hdisj hpre
    cases s with
    | nil => rw [subC_nil, render_nil] at hpre; simp [List.isPrefixOf] at hpre
    | cons c cs =>
      have hchcase : ∀ (hch : subC b (c :: cs) = .ch c :: subC (isWordChar c) cs),
          (x :: t').isPrefixOf (c :: cs) = true := by
        intro hch
        rw [hch, render_cons] at hpre
        have hpre' : (x :: t').isPrefixOf (c :: render (subC (isWordChar c) cs)) = true := by
          simpa [renderTok] using hpre
        obtain ⟨hxc, hrest⟩ := isPrefixOf_cons_iff.mp hpre'
        have hxw : isWordChar x = true := ht x (by simp)
        have := ih (fun y hy => ht y (by simp [hy])) (isWordChar c) cs
          (Or.inl (by rw [← hxc]; exact hxw)) hrest
        exact isPrefixOf_cons_iff.mpr ⟨hxc, this⟩
      by_cases hb : atBoundary b c = true
      · cases hm : tryMatch (c :: cs) with
        | some pr =>
          obtain ⟨L, rest⟩ := pr
          exfalso
          rw [subC_cons_match hb hm, render_cons] at hpre
          obtain ⟨hs_eq, hL, halpha, -⟩ := tryMatch_spec hm
          cases L with
          | nil => exact hL rfl
          | cons l₀ L' =>
            have hx : x = l₀ := by
              have : (x :: t').isPrefixOf
                  (l₀ :: (L' ++ sentinel ++ render (subC false rest))) = true := by
                simpa [renderTok, List.append_assoc] using hpre
              exact (isPrefixOf_cons_iff.mp this).1
            have hl₀ : l₀.isAlpha = true := halpha l₀ (by simp)
            rcases hdisj with hbT | hhead
            · have hc : c = l₀ := by
                have := congrArg List.head? hs_eq
                simpa using this
              rw [hbT, hc] at hb
              rw [atBoundary, isWordChar_of_isAlpha hl₀] at hb
              simp at hb
            · have := hhead x rfl
              rw [hx] at this
              rw [this] at hl₀
              exact absurd hl₀ (by simp)
        | none => exact hchcase (subC_cons_ch (Or.inr hm))
      · exact hchcase (subC_cons_ch (Or.inl (by simpa using hb)))

theorem replaceAll_self_prefix (pat rep : Str) (hp : pat ≠ []) (t : Str) :
    replaceAll pat rep (pat ++ t) = rep ++ replaceAll pat rep t := by
  cases pat with
  | nil => exact absurd rfl hp
  | cons p ps =>
    rw [List.cons_append, replaceAll_cons_pos _ _ _ _ hp ?pre]
    case pre =>
      rw [List.isPrefixOf_iff_prefix, ← List.cons_append]
      exact List.prefix_append _ _
    simp [List.drop_left]

theorem sentinel_eq : sentinel = '_' :: "_PROTECTED_DOT__".toList := by decide

theorem sentinel_prefix_head {c : Char} {X : Str}
    (h : sentinel.isPrefixOf (c :: X) = true) : c = '_' := by
  rw [sentinel_eq] at h
  exact (isPrefixOf_cons_iff.mp h).1.symm

theorem replaceAll_alpha_walk (L : Str) (hL : ∀ c ∈ L, c.isAlpha = true) (t : Str) :
    replaceAll sentinel ['.'] (L ++ sentinel ++ t) = L ++ '.' :: replaceAll sentinel ['.'] t := by
  induction L with
  | nil =>
    simpa using replaceAll_self_prefix sentinel ['.'] sentinel_ne_nil t
  | cons c L' ih =>
    have hc : c.isAlpha = true := hL c (by simp)
    have hnp : ¬ sentinel.isPrefixOf (c :: (L' ++ sentinel ++ t)) = true := by
      intro h
      exact absurd (sentinel_prefix_head h) (isAlpha_ne_underscore hc)
    rw [List.cons_append, List.cons_append, replaceAll_cons_neg _ _ _ _ sentinel_ne_nil hnp,
      ih (fun x hx => hL x (by simp [hx]))]
    rfl

theorem sentinel_head_not_alpha : ∀ c, sentinel.head? = some c → c.isAlpha = false := by
  decide

/-- Restoration inverts the pattern-based protection on any string
that does not already contain the sentinel. -/
theorem restore_subC : ∀ (n : Nat) (s : Str), s.length ≤ n → ∀ (b : Bool),
    containsSub sentinel s = false →
    replaceAll sentinel ['.'] (render (subC b s)) = s := by
  intro n
  induction n with
  | zero =>
    intro s hs b _
    have : s = [] := List.length_eq_zero.mp (Nat.le_zero.mp hs)
    subst this
    rfl
  | succ n ih =>
    intro s hs b hfree
    cases s with
    | nil => rfl
    | cons c cs =>
      have hchcase : ∀ (hch : subC b (c :: cs) = .ch c :: subC (isWordChar c) cs),
          replaceAll sentinel ['.'] (render (subC b (c :: cs))) = c :: cs := by
        intro hch
        have hnp : ¬ sentinel.isPrefixOf (c :: render (subC (isWordChar c) cs)) = true := by
          intro h'
          have h'' : sentinel.isPrefixOf (render (subC b (c :: cs))) = true := by
            rw [hch, render_cons]
            simpa [renderTok] using h'
          have hps := walk sentinel sentinel_word b (c :: cs)
            (Or.inr sentinel_head_not_alpha) h''
          rw [containsSub_of_isPrefixOf hps] at hfree
          exact absurd hfree (by simp)
        have hfree' : containsSub sentinel cs = false := by
          revert hfree
          simp only [containsSub, Bool.or_eq_false_iff]
          exact fun h => h.2
        rw [hch, render_cons]
        show replaceAll sentinel ['.'] (c :: render (subC (isWordChar c) cs)) = c :: cs
        rw [replaceAll_cons_neg _ _ _ _ sentinel_ne_nil hnp,
          ih cs (by simpa using hs) (isWordChar c) hfree']
      by_cases hb : atBoundary b c = true
      · cases hm : tryMatch (c :: cs) with
        | some pr =>
          obtain ⟨L, rest⟩ := pr
          rw [subC_cons_match hb hm, render_cons]
          obtain ⟨hs_eq, hL, halpha, -⟩ := tryMatch_spec hm
          have hshape : renderTok (Tok.prot L) ++ render (subC false rest) =
              L ++ sentinel ++ render (subC false rest) := by
            simp [renderTok]
          rw [hshape, replaceAll_alpha_walk L halpha _]
          have hlen := tryMatch_rest_length hm
          simp only [List.length_cons] at hlen
          have hfree' : containsSub sentinel rest = false := by
            by_contra h'
            have h'' : containsSub sentinel rest = true := by
              revert h'
              cases containsSub sentinel rest <;> simp
            have : containsSub sentinel (c :: cs) = true := by
              rw [hs_eq]
              have := containsSub_append_right h'' (L ++ ['.'])
              simpa using this
            rw [this] at hfree
            exact absurd hfree (by simp)
          have hn : cs.length ≤ n := by simpa using hs
          rw [ih rest (by omega) false hfree']
          exact hs_eq.symm
        | none => exact hchcase (subC_cons_ch (Or.inr hm))
      · exact hchcase (subC_cons_ch (Or.inl (by simpa using hb)))

/-! #### Idempotence of the pattern-based protection -/

theorem isLower_ne_dot {a : Char} (h : a.isLower = true) : a ≠ '.' := by
  intro he
  rw [he] at h
  exact absurd h (by decide)

theorem dropWhile_head_false {p : Char → Bool} :
    ∀ (l : Str) (e : Char) (es : Str), l.dropWhile p = e :: es → p e = false := by
  intro l
  induction l with
  | nil => intro e es h; simp [List.dropWhile] at h
  | cons a as ih =>
    intro e es h
    by_cases hp : p a = true
    · rw [List.dropWhile_cons_of_pos hp] at h
      exact ih e es h
    · rw [List.dropWhile_cons_of_neg hp] at h
      obtain ⟨h1, -⟩ := List.cons.injEq .. ▸ h
      injection h with h1 _
      rw [← h1]
      simpa using hp

/-- Success or failure of the anchored match at a letter-run head does
not depend on what follows the run's first non-lowercase character. -/
theorem tryMatch_run_congr (c : Char) (u : Str) (hu : ∀ x ∈ u, x.isLower = true)
    (e : Char) (he : e.isLower = false) (t₁ t₂ : Str)
    (h : tryMatch (c :: (u ++ e :: t₁)) = none) :
    tryMatch (c :: (u ++ e :: t₂)) = none := by
  have hhead : ∀ t : Str, (u ++ e :: t).head? = (u ++ e :: t₁).head? := by
    intro t; cases u <;> simp
  simp only [tryMatch] at h ⊢
  by_cases hU : c.isUpper = true
  · rw [if_pos hU] at h ⊢
    by_cases hh : (u ++ e :: t₂).head? = some '.'
    · rw [hhead t₂] at hh
      rw [if_pos hh] at h
      exact absurd h (by simp)
    · rw [if_neg hh]
      have hh1 : ¬ (u ++ e :: t₁).head? = some '.' := by rw [hhead t₂] at hh; exact hh
      rw [if_neg hh1] at h
      rw [takeWhile_run u e t₁ hu he] at h
      rw [takeWhile_run u e t₂ hu he]
      by_cases hue : u = []
      · rw [if_pos hue]
      · rw [if_neg hue] at h ⊢
        rw [dropWhile_run u e t₁ hu he] at h
        rw [dropWhile_run u e t₂ hu he]
        simp only [List.head?_cons] at h ⊢
        by_cases hedot : (some e = some '.')
        · rw [if_pos hedot] at h
          exact absurd h (by simp)
        · rw [if_neg hedot]
  · rw [if_neg hU] at h ⊢
    by_cases hLo : c.isLower = true
    · rw [if_pos hLo] at h ⊢
      rw [List.dropWhile_cons_of_pos hLo] at h ⊢
      rw [dropWhile_run u e t₁ hu he] at h
      rw [dropWhile_run u e t₂ hu he]
      simp only [List.head?_cons] at h ⊢
      by_cases hedot : (some e = some '.')
      · rw [if_pos hedot] at h
        exact absurd h (by simp)
      · rw [if_neg hedot]
    · rw [if_neg hLo]

theorem underscore_not_lower : ('_' : Char).isLower = false := by decide

/-- A protected token followed by the sentinel can never be matched
again: every alternative requires a dot right after its letters, but
the next character is the sentinel's underscore. -/
theorem tryMatch_prot_none (L R : Str) (hne : L ≠ [])
    (hshape : (∃ c, L = [c] ∧ c.isUpper = true) ∨
              (∃ c ls, L = c :: ls ∧ c.isUpper = true ∧ ls ≠ [] ∧ ∀ x ∈ ls, x.isLower = true) ∨
              (∀ x ∈ L, x.isLower = true)) :
    tryMatch (L ++ sentinel ++ R) = none := by
  have hsR : sentinel ++ R = '_' :: ("_PROTECTED_DOT__".toList ++ R) := by
    rw [sentinel_eq]; simp
  rcases hshape with ⟨c, hL, hU⟩ | ⟨c, ls, hL, hU, hlsne, hls⟩ | hlow
  · subst hL
    simp only [List.cons_append, List.nil_append, hsR, tryMatch]
    rw [if_pos hU]
    rw [if_neg (by simp), if_pos (by rw [List.takeWhile_cons_of_neg (by decide)])]
  · subst hL
    simp only [List.cons_append, List.append_assoc, hsR, tryMatch]
    rw [if_pos hU]
    have hh : (ls ++ '_' :: ("_PROTECTED_DOT__".toList ++ R)).head? ≠ some '.' := by
      cases ls with
      | nil => exact absurd rfl hlsne
      | cons a as =>
        simp only [List.cons_append, List.head?_cons]
        intro hx
        exact absurd (by injection hx) (isLower_ne_dot (hls a (by simp)))
    rw [if_neg hh]
    rw [takeWhile_run ls '_' _ hls underscore_not_lower]
    rw [if_neg hlsne]
    rw [dropWhile_run ls '_' _ hls underscore_not_lower]
    rw [if_neg (by simp)]
  · cases L with
    | nil => exact absurd rfl hne
    | cons l₀ ls' =>
      have hls' : ∀ x ∈ ls', x.isLower = true := fun x hx => hlow x (by simp [hx])
      simp only [List.cons_append, List.append_assoc, hsR, tryMatch]
      by_cases hU : l₀.isUpper = true
      · rw [if_pos hU]
        cases ls' with
        | nil =>
          rw [if_neg (by simp), if_pos (by rw [List.nil_append, List.takeWhile_cons_of_neg (by decide)])]
        | cons a as =>
          have hh : ((a :: as) ++ '_' :: ("_PROTECTED_DOT__".toList ++ R)).head? ≠ some '.' := by
            simp only [List.cons_append, List.head?_cons]
            intro hx
            exact absurd (by injection hx) (isLower_ne_dot (hls' a (by simp)))
          rw [if_neg hh]
          rw [takeWhile_run (a :: as) '_' _ hls' underscore_not_lower]
          rw [if_neg (by simp)]
          rw [dropWhile_run (a :: as) '_' _ hls' underscore_not_lower]
          rw [if_neg (by simp)]
      · rw [if_neg hU]
        have hLo : l₀.isLower = true := hlow l₀ (by simp)
        rw [if_pos hLo]
        rw [List.dropWhile_cons_of_pos hLo]
        rw [dropWhile_run ls' '_' _ hls' underscore_not_lower]
        rw [if_neg (by simp)]

/-- Re-scanning the rendering of a protected token leaves it untouched
character by character. -/
theorem subC_prot_skip (L R : Str) (b : Bool) (hne : L ≠ [])
    (halpha : ∀ c ∈ L, c.isAlpha = true)
    (hshape : (∃ c, L = [c] ∧ c.isUpper = true) ∨
              (∃ c ls, L = c :: ls ∧ c.isUpper = true ∧ ls ≠ [] ∧ ∀ x ∈ ls, x.isLower = true) ∨
              (∀ x ∈ L, x.isLower = true)) :
    subC b (L ++ sentinel ++ R) = (L ++ sentinel).map .ch ++ subC true R := by
  cases L with
  | nil => exact absurd rfl hne
  | cons l₀ L' =>
    have hm : tryMatch (l₀ :: (L' ++ sentinel ++ R)) = none := by
      have := tryMatch_prot_none (l₀ :: L') R hne hshape
      simpa [List.append_assoc] using this
    have hstep : subC b ((l₀ :: L') ++ sentinel ++ R) =
        .ch l₀ :: subC (isWordChar l₀) (L' ++ sentinel ++ R) := by
      simp only [List.cons_append, List.append_assoc] at hm ⊢
      exact subC_cons_ch (Or.inr hm)
    rw [hstep]
    have hl₀ : isWordChar l₀ = true := isWordChar_of_isAlpha (halpha l₀ (by simp))
    rw [hl₀]
    have hword : ∀ c ∈ L' ++ sentinel, isWordChar c = true := by
      intro c hc
      rcases List.mem_append.mp hc with h1 | h2
      · exact isWordChar_of_isAlpha (halpha c (by simp [h1]))
      · exact sentinel_word c h2
    have := subC_allword (L' ++ sentinel) hword R
    rw [List.append_assoc] at this ⊢
    rw [this]
    simp

/-- Re-scanning the output of the protection scan produces no further
matches: the pass-two previous-word state `b₂` is implied by the
pass-one state `b₁` (after a protected token pass one resumes after a
dot, pass two after the sentinel's underscore). -/
theorem subC_render_noop : ∀ (n : Nat) (s : Str), s.length ≤ n → ∀ (b₁ b₂ : Bool),
    (b₁ = true → b₂ = true) →
    subC b₂ (render (subC b₁ s)) = (render (subC b₁ s)).map .ch := by
  intro n
  induction n with
  | zero =>
    intro s hs b₁ b₂ _
    have : s = [] := List.length_eq_zero.mp (Nat.le_zero.mp hs)
    subst this
    rfl
  | succ n ih =>
    intro s hs b₁ b₂ hrel
    cases s with
    | nil => rfl
    | cons c cs =>
      have hn : cs.length ≤ n := by simpa using hs
      by_cases hb₁ : atBoundary b₁ c = true
      · cases hm : tryMatch (c :: cs) with
        | some pr =>
          obtain ⟨L, rest⟩ := pr
          obtain ⟨hs_eq, hL, halpha, hshape⟩ := tryMatch_spec hm
          have hlen := tryMatch_rest_length hm
          simp only [List.length_cons] at hlen
          rw [subC_cons_match hb₁ hm, render_cons]
          have hshow : renderTok (Tok.prot L) ++ render (subC false rest) =
              L ++ sentinel ++ render (subC false rest) := by
            simp [renderTok]
          rw [hshow]
          rw [subC_prot_skip L (render (subC false rest)) b₂ hL halpha hshape]
          rw [ih rest (by omega) false true (by simp)]
          simp
        | none =>
          rw [subC_cons_ch (Or.inr hm), render_cons]
          have hRmap := ih cs hn (isWordChar c) (isWordChar c) (fun h => h)
          have hnone₂ : atBoundary b₂ c = false ∨
              tryMatch (c :: render (subC (isWordChar c) cs)) = none := by
            by_cases hb₂ : atBoundary b₂ c = true
            · refine Or.inr ?_
              by_cases hcw : isWordChar c = true
              · -- pass one had a boundary and failed to match; the
                -- rendered tail starts with the same letter run.
                cases hd : cs.dropWhile Char.isLower with
                | nil =>
                  have hcseq : cs.takeWhile Char.isLower = cs := by
                    have := List.takeWhile_append_dropWhile (p := Char.isLower) (l := cs)
                    rw [hd] at this
                    simpa using this
                  have hlow : ∀ x ∈ cs, x.isLower = true := by
                    intro x hx
                    rw [← hcseq] at hx
                    exact List.mem_takeWhile_imp hx
                  have hcsw : ∀ x ∈ cs, isWordChar x = true :=
                    fun x hx => isWordChar_of_isAlpha (isAlpha_of_isLower (hlow x hx))
                  have : subC (isWordChar c) cs = cs.map .ch := by
                    rw [hcw]
                    have := subC_allword cs hcsw []
                    simpa [subC_nil] using this
                  rw [this, render_map_ch]
                  exact hm
                | cons e es =>
                  have he : e.isLower = false := dropWhile_head_false cs e es hd
                  have hcs_eq : cs = cs.takeWhile Char.isLower ++ e :: es := by
                    conv_lhs => rw [← List.takeWhile_append_dropWhile (p := Char.isLower) (l := cs)]
                    rw [hd]
                  have hulow : ∀ x ∈ cs.takeWhile Char.isLower, x.isLower = true :=
                    fun x hx => List.mem_takeWhile_imp hx
                  have huword : ∀ x ∈ cs.takeWhile Char.isLower, isWordChar x = true :=
                    fun x hx => isWordChar_of_isAlpha (isAlpha_of_isLower (hulow x hx))
                  have hehead : subC true (e :: es) = .ch e :: subC (isWordChar e) es := by
                    by_cases hew : isWordChar e = true
                    · exact subC_cons_ch (Or.inl (by simp [atBoundary, hew]))
                    · obtain ⟨h1, h2⟩ := not_letter_of_not_word (by simpa using hew)
                      exact subC_cons_ch (Or.inr (tryMatch_not_letter h1 h2 es))
                  have hdecomp : render (subC (isWordChar c) cs) =
                      cs.takeWhile Char.isLower ++ e :: render (subC (isWordChar e) es) := by
                    rw [hcw]
                    conv_lhs => rw [hcs_eq]
                    rw [subC_allword (cs.takeWhile Char.isLower) huword (e :: es), hehead,
                      render_append, render_map_ch, render_cons]
                    simp [renderTok]
                  rw [hdecomp]
                  refine tryMatch_run_congr c (cs.takeWhile Char.isLower) hulow e he es _ ?_
                  rw [← hcs_eq]
                  exact hm
              · obtain ⟨h1, h2⟩ := not_letter_of_not_word (by simpa using hcw)
                exact tryMatch_not_letter h1 h2 _
            · exact Or.inl (by simpa using hb₂)
          rw [show renderTok (Tok.ch c) ++ render (subC (isWordChar c) cs) =
              c :: render (subC (isWordChar c) cs) from by simp [renderTok]]
          rw [subC_cons_ch hnone₂, hRmap]
          simp
      · -- no boundary in pass one: then b₁ = isWordChar c; pass two at
        -- the same character either also sees no boundary or a
        -- boundary at a non-word (hence non-letter) character.
        rw [subC_cons_ch (Or.inl (by simpa using hb₁)), render_cons]
        have hRmap := ih cs hn (isWordChar c) (isWordChar c) (fun h => h)
        have hb₁' : b₁ = isWordChar c := by
          revert hb₁
          unfold atBoundary
          cases b₁ <;> cases hw : isWordChar c <;> simp
        have hnone₂ : atBoundary b₂ c = false ∨
            tryMatch (c :: render (subC (isWordChar c) cs)) = none := by
          by_cases hb₂ : atBoundary b₂ c = true
          · refine Or.inr ?_
            by_cases hcw : isWordChar c = true
            · exfalso
              rw [hcw] at hb₁'
              have := hrel hb₁'
              rw [this, atBoundary, hcw] at hb₂
              simp at hb₂
            · obtain ⟨h1, h2⟩ := not_letter_of_not_word (by simpa using hcw)
              exact tryMatch_not_letter h1 h2 _
          · exact Or.inl (by simpa using hb₂)
        rw [show renderTok (Tok.ch c) ++ render (subC (isWordChar c) cs) =
            c :: render (subC (isWordChar c) cs) from by simp [renderTok]]
        rw [subC_cons_ch hnone₂, hRmap]
        simp

/-- The pattern-based protection is idempotent. -/
theorem regexProtect_idem (s : Str) : regexProtect (regexProtect s) = regexProtect s := by
  show render (subA (regexProtect s).length false (regexProtect s)) = regexProtect s
  rw [subA_eq_subC le_rfl]
  show render (subC false (render (subA s.length false s))) = _
  rw [subA_eq_subC le_rfl]
  rw [subC_render_noop s.length s le_rfl false false (fun h => h)]
  rw [render_map_ch]
  show _ = render (subA s.length false s)
  rw [subA_eq_subC le_rfl]

/-! ### Lemmas about the Python string primitives -/

theorem dropWhile_idem {p : Char → Bool} :
    ∀ l : Str, (l.dropWhile p).dropWhile p = l.dropWhile p := by
  intro l
  induction l with
  | nil => rfl
  | cons c cs ih =>
    by_cases hc : p c = true
    · rw [List.dropWhile_cons_of_pos hc, ih]
    · rw [List.dropWhile_cons_of_neg hc, List.dropWhile_cons_of_neg hc]

theorem rstrip_length_le (s : Str) : (rstrip s).length ≤ s.length := by
  unfold rstrip
  calc (s.reverse.dropWhile pyIsSpace).reverse.length
      = (s.reverse.dropWhile pyIsSpace).length := by rw [List.length_reverse]
    _ ≤ s.reverse.length := (List.dropWhile_suffix pyIsSpace).length_le
    _ = s.length := List.length_reverse _

theorem rstrip_idem (s : Str) : rstrip (rstrip s) = rstrip s := by
  unfold rstrip
  rw [List.reverse_reverse, dropWhile_idem]

theorem rstrip_nil : rstrip [] = [] := rfl

theorem rstrip_of_all (s : Str) (h : ∀ c ∈ s, pyIsSpace c = true) : rstrip s = [] := by
  unfold rstrip
  rw [List.dropWhile_eq_nil_iff.mpr (fun c hc => h c (List.mem_reverse.mp hc))]
  rfl

theorem rstrip_append_ws (s : Str) (c : Char) (hc : pyIsSpace c = true) :
    rstrip (s ++ [c]) = rstrip s := by
  unfold rstrip
  rw [List.reverse_append, List.reverse_singleton, List.singleton_append,
    List.dropWhile_cons_of_pos hc]

theorem rstrip_of_last {s : Str} {c : Char} (h : s.getLast? = some c)
    (hc : pyIsSpace c = false) : rstrip s = s := by
  unfold rstrip
  have hh : s.reverse.head? = some c := by rw [List.head?_reverse, h]
  cases hr : s.reverse with
  | nil => rw [hr] at hh; simp at hh
  | cons d ds =>
    rw [hr] at hh
    have : d = c := by simpa using hh
    subst this
    rw [List.dropWhile_cons_of_neg (by simp [hc]), ← hr, List.reverse_reverse]

theorem rstrip_nonws (s : Str) (h : ∀ c ∈ s, pyIsSpace c = false) : rstrip s = s := by
  cases hl : s.getLast? with
  | none => rw [List.getLast?_eq_none_iff.mp hl]; rfl
  | some c => exact rstrip_of_last hl (h c (List.mem_of_mem_getLast? hl))

theorem lstrip_nonws (s : Str) (h : ∀ c ∈ s, pyIsSpace c = false) : lstrip s = s := by
  unfold lstrip
  cases s with
  | nil => rfl
  | cons c cs => rw [List.dropWhile_cons_of_neg (by simp [h c (by simp)])]

theorem pyStrip_nonws (s : Str) (h : ∀ c ∈ s, pyIsSpace c = false) : pyStrip s = s := by
  unfold pyStrip
  rw [rstrip_nonws s h, lstrip_nonws s h]

theorem pyStrip_nil : pyStrip [] = [] := rfl

theorem pyStrip_of_all (s : Str) (h : ∀ c ∈ s, pyIsSpace c = true) : pyStrip s = [] := by
  unfold pyStrip
  rw [rstrip_of_all s h]
  rfl

/-- The non-whitespace characters survive stripping. -/
theorem filter_nonws_dropWhile (l : Str) :
    (l.dropWhile pyIsSpace).filter (fun c => !pyIsSpace c) =
      l.filter (fun c => !pyIsSpace c) := by
  induction l with
  | nil => rfl
  | cons c cs ih =>
    by_cases hc : pyIsSpace c = true
    · rw [List.dropWhile_cons_of_pos hc, ih, List.filter_cons_of_neg (by simp [hc])]
    · rw [List.dropWhile_cons_of_neg hc]

theorem filter_nonws_rstrip (s : Str) :
    (rstrip s).filter (fun c => !pyIsSpace c) = s.filter (fun c => !pyIsSpace c) := by
  unfold rstrip
  rw [List.filter_reverse, filter_nonws_dropWhile, List.filter_reverse,
    List.reverse_reverse]

theorem filter_nonws_pyStrip (s : Str) :
    (pyStrip s).filter (fun c => !pyIsSpace c) = s.filter (fun c => !pyIsSpace c) := by
  unfold pyStrip lstrip
  rw [filter_nonws_dropWhile, filter_nonws_rstrip]

theorem pyStrip_ne_nil {s : Str} {c : Char} (hc : c ∈ s) (hws : pyIsSpace c = false) :
    pyStrip s ≠ [] := by
  intro h
  have := filter_nonws_pyStrip s
  rw [h] at this
  have hcm : c ∈ s.filter (fun c => !pyIsSpace c) :=
    List.mem_filter.mpr ⟨hc, by simp [hws]⟩
  rw [← this] at hcm
  simp at hcm

theorem pyStrip_all_ws {s : Str} (h : pyStrip s = []) : ∀ c ∈ s, pyIsSpace c = true := by
  intro c hc
  by_contra hcw
  exact absurd h (pyStrip_ne_nil hc (by revert hcw; cases pyIsSpace c <;> simp))

theorem replaceAll_ne_nil {pat rep s : Str} (hp : pat ≠ []) (hr : rep ≠ [])
    (hs : s ≠ []) : replaceAll pat rep s ≠ [] := by
  cases s with
  | nil => exact absurd rfl hs
  | cons c cs =>
    by_cases h : pat.isPrefixOf (c :: cs) = true
    · rw [replaceAll_cons_pos _ _ _ _ hp h]
      simp [hr]
    · rw [replaceAll_cons_neg _ _ _ _ hp h]
      simp

theorem pyStrip_idem (s : Str) : pyStrip (pyStrip s) = pyStrip s := by
  by_cases h : pyStrip s = []
  · rw [h]; rfl
  · have hrr : rstrip (pyStrip s) = pyStrip s := by
      cases hl : (pyStrip s).getLast? with
      | none => exact absurd (List.getLast?_eq_none_iff.mp hl) h
      | some c =>
        refine rstrip_of_last hl ?_
        have hsuff : pyStrip s <:+ rstrip s := List.dropWhile_suffix _
        obtain ⟨t, ht⟩ := hsuff
        have hlast : (rstrip s).getLast? = some c := by
          rw [← ht, List.getLast?_append_of_ne_nil t h, hl]
        have hhead : (s.reverse.dropWhile pyIsSpace).head? = some c := by
          have hr : rstrip s = (s.reverse.dropWhile pyIsSpace).reverse := rfl
          rw [hr, List.getLast?_reverse] at hlast
          exact hlast
        cases hd : s.reverse.dropWhile pyIsSpace with
        | nil => rw [hd] at hhead; simp at hhead
        | cons d ds =>
          have hdc : d = c := by rw [hd] at hhead; simpa using hhead
          subst hdc
          exact dropWhile_head_false s.reverse d ds hd
    calc pyStrip (pyStrip s) = lstrip (rstrip (pyStrip s)) := rfl
      _ = lstrip (pyStrip s) := by rw [hrr]
      _ = lstrip (lstrip (rstrip s)) := rfl
      _ = lstrip (rstrip s) := dropWhile_idem _
      _ = pyStrip s := rfl

/-! #### Lemmas about `pySplit` and `splitTerm` -/

theorem pySplit_ne_nil (sep : Char) : ∀ s : Str, pySplit sep s ≠ [] := by
  intro s
  induction s with
  | nil => simp [pySplit]
  | cons c cs ih =>
    simp only [pySplit]
    cases h : pySplit sep cs with
    | nil => simp
    | cons hh tt =>
      by_cases hc : c = sep
      · simp [hc]
      · simp [hc]

theorem joinNL_cons₂ (l m : Str) (ms : List Str) :
    joinNL (l :: m :: ms) = l ++ '\n' :: joinNL (m :: ms) := rfl

theorem pySplit_join : ∀ s : Str, joinNL (pySplit '\n' s) = s := by
  intro s
  induction s with
  | nil => rfl
  | cons c cs ih =>
    simp only [pySplit]
    cases h : pySplit '\n' cs with
    | nil => exact absurd h (pySplit_ne_nil _ _)
    | cons hh tt =>
      rw [h] at ih
      dsimp only
      by_cases hc : c = '\n'
      · subst hc
        rw [if_pos rfl, joinNL_cons₂, ih]
        rfl
      · rw [if_neg hc]
        cases tt with
        | nil =>
          show joinNL [c :: hh] = c :: cs
          show c :: hh = c :: cs
          rw [show joinNL [hh] = hh from rfl] at ih
          rw [ih]
        | cons m ms =>
          rw [joinNL_cons₂] at ih ⊢
          rw [List.cons_append, ih]

theorem mem_joinNL : ∀ (ls : List Str) (c : Char),
    c ∈ joinNL ls → c = '\n' ∨ ∃ l ∈ ls, c ∈ l := by
  intro ls
  induction ls with
  | nil => intro c h; simp [joinNL] at h
  | cons l ls' ih =>
    intro c h
    cases ls' with
    | nil => exact Or.inr ⟨l, by simp, by simpa [joinNL] using h⟩
    | cons m ms =>
      rw [joinNL_cons₂] at h
      rcases List.mem_append.mp h with h1 | h2
      · exact Or.inr ⟨l, by simp, h1⟩
      · rcases List.mem_cons.mp h2 with h3 | h4
        · exact Or.inl h3
        · rcases ih c h4 with h5 | ⟨x, hx1, hx2⟩
          · exact Or.inl h5
          · exact Or.inr ⟨x, by simp [List.mem_cons.mp hx1], hx2⟩

theorem pySplit_mem (sep : Char) :
    ∀ (s : Str) (pp : Str), pp ∈ pySplit sep s → ∀ c ∈ pp, c ∈ s := by
  intro s
  induction s with
  | nil =>
    intro pp hpp c hc
    simp [pySplit] at hpp
    subst hpp
    simp at hc
  | cons a as ih =>
    intro pp hpp c hc
    simp only [pySplit] at hpp
    cases h : pySplit sep as with
    | nil => exact absurd h (pySplit_ne_nil _ _)
    | cons hh tt =>
      rw [h] at hpp
      dsimp only at hpp
      by_cases ha : a = sep
      · rw [if_pos ha] at hpp
        rcases List.mem_cons.mp hpp with h1 | h2
        · subst h1; simp at hc
        · exact List.mem_cons_of_mem a (ih pp (h ▸ h2) c hc)
      · rw [if_neg ha] at hpp
        rcases List.mem_cons.mp hpp with h1 | h2
        · subst h1
          rcases List.mem_cons.mp hc with h3 | h4
          · simp [h3]
          · exact List.mem_cons_of_mem a (ih hh (h ▸ List.mem_cons_self hh tt) c h4)
        · exact List.mem_cons_of_mem a (ih pp (h ▸ List.mem_cons_of_mem hh h2) c hc)

theorem splitTermF_no_pairs : ∀ (f : Nat) (acc s : Str),
    (splitTermF f acc s).1 = [] → (splitTermF f acc s).2 = acc.reverse ++ s := by
  intro f
  induction f with
  | zero => intro acc s _; rfl
  | succ f ih =>
    intro acc s h
    cases s with
    | nil => simp [splitTermF]
    | cons c cs =>
      simp only [splitTermF] at h ⊢
      by_cases hm : (isTerminator c && !lookaheadAlnum cs) = true
      · rw [if_pos hm] at h
        simp at h
      · rw [if_neg hm] at h ⊢
        rw [ih (c :: acc) cs h]
        simp

theorem splitTermF_no_term : ∀ (f : Nat) (acc s : Str),
    (∀ c ∈ s, isTerminator c = false) → splitTermF f acc s = ([], acc.reverse ++ s) := by
  intro f
  induction f with
  | zero => intro acc s _; rfl
  | succ f ih =>
    intro acc s h
    cases s with
    | nil => simp [splitTermF]
    | cons c cs =>
      simp only [splitTermF]
      rw [if_neg (by simp [h c (by simp)])]
      rw [ih (c :: acc) cs (fun x hx => h x (by simp [hx]))]
      simp

theorem splitTerm_no_term (s : Str) (h : ∀ c ∈ s, isTerminator c = false) :
    splitTerm s = ([], s) := by
  unfold splitTerm
  rw [splitTermF_no_term s.length [] s h]
  rfl

theorem splitTermF_punct : ∀ (f : Nat) (acc s : Str),
    ∀ pr ∈ (splitTermF f acc s).1, ∃ c, pr.2 = [c] ∧ isTerminator c = true := by
  intro f
  induction f with
  | zero => intro acc s pr hpr; simp [splitTermF] at hpr
  | succ f ih =>
    intro acc s pr hpr
    cases s with
    | nil => simp [splitTermF] at hpr
    | cons c cs =>
      simp only [splitTermF] at hpr
      by_cases hm : (isTerminator c && !lookaheadAlnum cs) = true
      · rw [if_pos hm] at hpr
        rcases List.mem_cons.mp hpr with h1 | h2
        · subst h1
          exact ⟨c, rfl, (Bool.and_eq_true ..).mp hm |>.1⟩
        · exact ih [] (cs.dropWhile pyIsSpace) pr h2
      · rw [if_neg hm] at hpr
        exact ih (c :: acc) cs pr hpr

theorem terminator_not_space {c : Char} (h : isTerminator c = true) :
    pyIsSpace c = false := by
  simp only [isTerminator, Bool.or_eq_true, decide_eq_true_eq] at h
  rcases h with ((((h | h) | h) | h) | h) | h <;> (subst h; decide)

theorem headings_short : ∀ L ∈ HEADINGS, L.length ≤ 7 := by decide

theorem not_mem_headings_of_long {L : Str} (h : 20 ≤ L.length) : L ∉ HEADINGS := by
  intro hm
  have := headings_short L hm
  omega

/-! #### Lemmas about `updateLast` and the `j` loop -/

theorem updateLast_ne_nil (f : Str × Str → Str × Str) :
    ∀ {sw : List (Str × Str)}, sw ≠ [] → updateLast f sw ≠ [] := by
  intro sw h
  cases sw with
  | nil => exact absurd rfl h
  | cons x xs =>
    cases xs with
    | nil => simp [updateLast]
    | cons y ys => simp [updateLast]

theorem updateLast_append_singleton (f : Str × Str → Str × Str) :
    ∀ (xs : List (Str × Str)) (x : Str × Str),
      updateLast f (xs ++ [x]) = xs ++ [f x] := by
  intro xs
  induction xs with
  | nil => intro x; rfl
  | cons y ys ih =>
    intro x
    cases ys with
    | nil => rfl
    | cons z zs =>
      show y :: updateLast f ((z :: zs) ++ [x]) = y :: ((z :: zs) ++ [f x])
      rw [ih x]

theorem updateLast_pres {P : Str × Str → Prop} (f : Str × Str → Str × Str)
    (hf : ∀ p, P p → P (f p)) :
    ∀ sw : List (Str × Str), (∀ p ∈ sw, P p) → ∀ q ∈ updateLast f sw, P q := by
  intro sw
  induction sw with
  | nil => intro _ q hq; simp [updateLast] at hq
  | cons x xs ih =>
    intro hall q hq
    cases xs with
    | nil =>
      simp only [updateLast, List.mem_singleton] at hq
      subst hq
      exact hf x (hall x (List.mem_cons_self _ _))
    | cons y ys =>
      rw [show updateLast f (x :: y :: ys) = x :: updateLast f (y :: ys) from rfl] at hq
      rcases List.mem_cons.mp hq with h1 | h2
      · rw [h1]; exact hall x (List.mem_cons_self _ _)
      · exact ih (fun p hp => hall p (List.mem_cons_of_mem _ hp)) q h2

theorem jStep_ne {sw : List (Str × Str)} (current : Str) (h : sw ≠ []) :
    (jStep sw current).1 ≠ [] := by
  unfold jStep
  split_ifs <;> first
    | exact h
    | exact updateLast_ne_nil _ h
    | simp

theorem jStep_NE {sw : List (Str × Str)} (current : Str)
    (h : ∀ p ∈ sw, NEp p) : ∀ q ∈ (jStep sw current).1, NEp q := by
  have hpres : ∀ p : Str × Str, NEp p →
      NEp (if endsWith2NL p.2 then p else (p.1, p.2 ++ ['\n'])) := by
    intro p hp
    split_ifs
    · exact hp
    · unfold NEp
      intro hcon
      obtain ⟨-, h2⟩ := List.append_eq_nil.mp hcon
      obtain ⟨-, h4⟩ := List.append_eq_nil.mp h2
      exact absurd h4 (by simp)
  unfold jStep
  split_ifs with h1 h2 h3 h4
  · exact h
  · refine updateLast_pres _ ?_ sw h
    intro p hp
    unfold NEp at hp ⊢
    intro hcon
    obtain ⟨h12, h5⟩ := List.append_eq_nil.mp hcon
    obtain ⟨ha, -⟩ := List.append_eq_nil.mp h12
    exact hp (by rw [ha, h5]; rfl)
  · intro q hq
    rcases List.mem_append.mp hq with hq1 | hq2
    · exact updateLast_pres _ hpres sw h q hq1
    · have h5 := List.mem_singleton.mp hq2
      rw [h5]
      unfold NEp
      simpa using h3
  · intro q hq
    rcases List.mem_append.mp hq with hq1 | hq2
    · exact h q hq1
    · have h5 := List.mem_singleton.mp hq2
      rw [h5]
      unfold NEp
      simpa using h3
  · exact h

theorem jLoopPairs_ne : ∀ (ps : List (Str × Str)) (sw : List (Str × Str)) (current : Str),
    sw ≠ [] → (jLoopPairs ps sw current).1 ≠ [] := by
  intro ps
  induction ps with
  | nil => intro sw current h; exact h
  | cons pr ps' ih =>
    intro sw current h
    obtain ⟨part, punct⟩ := pr
    simp only [jLoopPairs]
    exact ih _ _ (jStep_ne _ h)

theorem jLoopPairs_NE : ∀ (ps : List (Str × Str)) (sw : List (Str × Str)) (current : Str),
    (∀ p ∈ sw, NEp p) → ∀ q ∈ (jLoopPairs ps sw current).1, NEp q := by
  intro ps
  induction ps with
  | nil => intro sw current h; exact h
  | cons pr ps' ih =>
    intro sw current h
    obtain ⟨part, punct⟩ := pr
    simp only [jLoopPairs]
    exact ih _ _ (jStep_NE _ h)

theorem jLoop_ne (pairs : List (Str × Str)) (lastText : Str)
    {sw : List (Str × Str)} (h : sw ≠ []) : jLoop pairs lastText sw ≠ [] := by
  unfold jLoop
  exact jStep_ne _ (jLoopPairs_ne pairs sw [] h)

theorem jLoop_NE (pairs : List (Str × Str)) (lastText : Str)
    {sw : List (Str × Str)} (h : ∀ p ∈ sw, NEp p) :
    ∀ q ∈ jLoop pairs lastText sw, NEp q := by
  unfold jLoop
  exact jStep_NE _ (jLoopPairs_NE pairs sw [] h)

/-! #### Nonemptiness of the segmenter's output -/

theorem processParagraph_ne {sw : List (Str × Str)} (p : Str) (h : sw ≠ []) :
    processParagraph sw p ≠ [] := by
  unfold processParagraph
  split_ifs
  · simp
  · exact updateLast_ne_nil _ (jLoop_ne _ _ h)

theorem processParagraph_NE {sw : List (Str × Str)} (p : Str)
    (h : ∀ q ∈ sw, NEp q) : ∀ q ∈ processParagraph sw p, NEp q := by
  unfold processParagraph
  split_ifs
  · intro q hq
    rcases List.mem_append.mp hq with hq1 | hq2
    · exact h q hq1
    · rw [List.mem_singleton.mp hq2]
      unfold NEp
      simp
  · refine updateLast_pres _ ?_ _ (jLoop_NE _ _ h)
    intro q hq
    unfold NEp at hq ⊢
    split_ifs <;>
    · intro hcon
      obtain ⟨-, h2⟩ := List.append_eq_nil.mp hcon
      obtain ⟨-, h4⟩ := List.append_eq_nil.mp h2
      exact absurd h4 (by simp)

theorem processParagraph_first (p : Str) : processParagraph [] p ≠ [] := by
  unfold processParagraph
  split_ifs with h1
  · simp
  · apply updateLast_ne_nil
    cases hsp : (splitTerm (pyStrip p)).1 with
    | nil =>
      have hlast : (splitTerm (pyStrip p)).2 = pyStrip p := by
        have := splitTermF_no_pairs (pyStrip p).length [] (pyStrip p) hsp
        simpa using this
      unfold jLoop
      rw [hlast]
      show (jStep [] ([] ++ pyStrip p)).1 ≠ []
      rw [List.nil_append]
      have hne : pyStrip (pyStrip p) ≠ [] := by rw [pyStrip_idem]; exact h1
      unfold jStep
      rw [if_neg (by simp), if_pos hne]
      simp
    | cons pr prs =>
      have hprm : pr ∈ (splitTerm (pyStrip p)).1 := by rw [hsp]; exact List.mem_cons_self _ _
      obtain ⟨c, hc2, hct⟩ := splitTermF_punct (pyStrip p).length [] (pyStrip p) pr hprm
      unfold jLoop
      apply jStep_ne
      obtain ⟨part, punct⟩ := pr
      simp only [jLoopPairs]
      apply jLoopPairs_ne
      have hc2' : punct = [c] := hc2
      have hcmem : c ∈ (if pyStrip part ≠ [] then ([] : Str) ++ part ++ punct
          else ([] : Str) ++ punct) := by
        rw [hc2']
        split_ifs <;> simp
      have hne : pyStrip (if pyStrip part ≠ [] then ([] : Str) ++ part ++ punct
          else ([] : Str) ++ punct) ≠ [] :=
        pyStrip_ne_nil hcmem (terminator_not_space hct)
      unfold jStep
      rw [if_neg (by simp), if_pos hne]
      simp

theorem foldl_procPar_ne : ∀ (ps : List Str) (sw : List (Str × Str)), sw ≠ [] →
    ps.foldl processParagraph sw ≠ [] := by
  intro ps
  induction ps with
  | nil => intro sw h; exact h
  | cons p ps' ih =>
    intro sw h
    rw [List.foldl_cons]
    exact ih _ (processParagraph_ne p h)

theorem foldl_procPar_NE : ∀ (ps : List Str) (sw : List (Str × Str)),
    (∀ q ∈ sw, NEp q) → ∀ q ∈ ps.foldl processParagraph sw, NEp q := by
  intro ps
  induction ps with
  | nil => intro sw h; exact h
  | cons p ps' ih =>
    intro sw h
    rw [List.foldl_cons]
    exact ih _ (processParagraph_NE p h)

theorem split_sentences_ne_nil (abbrs : List Str) (text : Str) :
    split_sentences abbrs text ≠ [] := by
  unfold split_sentences
  intro hcon
  rw [List.map_eq_nil_iff] at hcon
  cases hpar : pySplit '\n' (protect_abbreviations abbrs text) with
  | nil => exact pySplit_ne_nil _ _ hpar
  | cons p ps =>
    rw [hpar, List.foldl_cons] at hcon
    exact absurd hcon (foldl_procPar_ne ps _ (processParagraph_first p))

theorem split_sentences_NE (abbrs : List Str) (text : Str) :
    ∀ q ∈ split_sentences abbrs text, q.1 ++ q.2 ≠ [] := by
  unfold split_sentences
  intro q hq
  rw [List.mem_map] at hq
  obtain ⟨p, hp, hq⟩ := hq
  have hNEp : NEp p := foldl_procPar_NE _ [] (by simp) p hp
  rw [← hq]
  show restore_abbreviations p.1 ++ p.2 ≠ []
  by_cases h2 : p.2 = []
  · have h1 : p.1 ≠ [] := by
      intro hc
      exact hNEp (by rw [hc, h2]; rfl)
    have := replaceAll_ne_nil sentinel_ne_nil (by simp : (['.'] : Str) ≠ []) h1
    intro hcon
    obtain ⟨ha, -⟩ := List.append_eq_nil.mp hcon
    exact this ha
  · intro hcon
    obtain ⟨-, hb⟩ := List.append_eq_nil.mp hcon
    exact h2 hb

/-! #### Nonemptiness of the assembler's output -/

theorem flatten_append_ne {l : List Str} {s : Str} (hs : s ≠ []) :
    (l ++ [s]).flatten ≠ [] := by
  intro hcon
  rw [List.flatten_append] at hcon
  obtain ⟨-, h2⟩ := List.append_eq_nil.mp hcon
  apply hs
  simpa using h2

theorem flatten_singleton_ne {s : Str} (hs : s ≠ []) : ([s] : List Str).flatten ≠ [] := by
  simpa using hs

theorem chunkStep_estab (cfg : ChunkCfg) (oracle : Str → Str → Bool) (st : AsmState)
    (sn : Str × Str) (hsn : sn.1 ++ sn.2 ≠ []) :
    (chunkStep cfg oracle st sn).chunks ≠ [] ∨ curStr (chunkStep cfg oracle st sn) ≠ [] := by
  simp only [chunkStep, curStr]
  split_ifs <;>
    first
      | (left; simp; done)
      | (right; exact flatten_append_ne hsn)
      | (right; exact flatten_singleton_ne hsn)

theorem fold_estab (cfg : ChunkCfg) (oracle : Str → Str → Bool) :
    ∀ (l : List (Str × Str)) (st : AsmState), l ≠ [] → (∀ sn ∈ l, sn.1 ++ sn.2 ≠ []) →
      (l.foldl (chunkStep cfg oracle) st).chunks ≠ [] ∨
        curStr (l.foldl (chunkStep cfg oracle) st) ≠ [] := by
  intro l
  induction l with
  | nil => intro st h _; exact absurd rfl h
  | cons x xs ih =>
    intro st _ hall
    cases xs with
    | nil =>
      rw [List.foldl_cons, List.foldl_nil]
      exact chunkStep_estab cfg oracle st x (hall x (by simp))
    | cons y ys =>
      rw [List.foldl_cons]
      exact ih _ (by simp) (fun sn hsn => hall sn (by simp [List.mem_cons.mp hsn]))

theorem sentence_based_chunk_ne_nil (cfg : ChunkCfg) (oracle : Str → Str → Bool)
    (abbrs : List Str) (text : Str) : sentence_based_chunk cfg oracle abbrs text ≠ [] := by
  unfold sentence_based_chunk chunkGroups chunkFinal chunkRun
  have hQ := fold_estab cfg oracle (split_sentences abbrs text) initState
    (split_sentences_ne_nil abbrs text) (split_sentences_NE abbrs text)
  intro hcon
  rw [List.map_eq_nil_iff] at hcon
  revert hcon
  split_ifs with hcur
  · simp
  · rcases hQ with h1 | h2
    · exact h1
    · exact absurd h2 hcur

/-! #### Generic fold invariant for the assembler loop -/

theorem foldl_chunkStep_inv (cfg : ChunkCfg) (oracle : Str → Str → Bool)
    (P : AsmState → Prop)
    (hstep : ∀ st sn, P st → P (chunkStep cfg oracle st sn)) :
    ∀ (l : List (Str × Str)) (st : AsmState), P st → P (l.foldl (chunkStep cfg oracle) st) := by
  intro l
  induction l with
  | nil => intro st h; exact h
  | cons x xs ih =>
    intro st h
    rw [List.foldl_cons]
    exact ih _ (hstep st x h)

/-! #### The oracle call trace (claim about `is_topic_shift` gating) -/

/-- In one step of the loop, either the call trace is unchanged, or one
call is appended whose first argument is the accumulator, which the
branch conditions of lines 321-324 guarantee is non-empty and at least
`min_chunk_size` long. -/
theorem chunkStep_calls_cases (cfg : ChunkCfg) (oracle : Str → Str → Bool)
    (st : AsmState) (sn : Str × Str) :
    (chunkStep cfg oracle st sn).calls = st.calls ∨
    ((chunkStep cfg oracle st sn).calls = st.calls ++ [(curStr st, sn.1)] ∧
      cfg.min_chunk_size ≤ (curStr st).length ∧ curStr st ≠ []) := by
  simp only [chunkStep]
  split_ifs <;>
    first
      | exact Or.inl rfl
      | (refine Or.inr ⟨rfl, ?_, ?_⟩
         · exact (by assumption :
             cfg.min_chunk_size ≤ (curStr st).length ∧ 2 ≤ st.scount + 1).1
         · assumption)

theorem chunkCalls_bound (cfg : ChunkCfg) (oracle : Str → Str → Bool)
    (abbrs : List Str) (text : Str) :
    ∀ e ∈ chunkCalls cfg oracle abbrs text,
      cfg.min_chunk_size ≤ e.1.length ∧ e.1 ≠ [] := by
  unfold chunkCalls chunkRun
  refine foldl_chunkStep_inv cfg oracle
    (fun st => ∀ e ∈ st.calls, cfg.min_chunk_size ≤ e.1.length ∧ e.1 ≠ []) ?_ _ initState
    (by intro e he; simp [initState] at he)
  intro st sn h
  rcases chunkStep_calls_cases cfg oracle st sn with hc | ⟨hc, hlen, hne⟩
  · rw [hc]; exact h
  · rw [hc]
    intro e he
    rcases List.mem_append.mp he with he1 | he2
    · exact h e he1
    · rw [List.mem_singleton.mp he2]
      exact ⟨hlen, hne⟩

/-! #### Size bounds of the assembler -/

theorem flatten_append_singleton_length (l : List Str) (s : Str) :
    ((l ++ [s]).flatten).length = l.flatten.length + s.length := by
  rw [List.flatten_append]
  simp

/-- The accumulator never exceeds the 20% tolerance, and every finalized
multi-sentence group is within it too. -/
theorem chunkStep_size_inv (cfg : ChunkCfg) (oracle : Str → Str → Bool)
    (st : AsmState) (sn : Str × Str)
    (hP : 10 * (curStr st).length ≤ 12 * cfg.max_chunk_size ∧
      ∀ g ∈ st.chunks, 2 ≤ g.length → 10 * g.flatten.length ≤ 12 * cfg.max_chunk_size) :
    10 * (curStr (chunkStep cfg oracle st sn)).length ≤ 12 * cfg.max_chunk_size ∧
      ∀ g ∈ (chunkStep cfg oracle st sn).chunks, 2 ≤ g.length →
        10 * g.flatten.length ≤ 12 * cfg.max_chunk_size := by
  obtain ⟨hcur, hchunks⟩ := hP
  have hmemtwo : ∀ L : List (List Str),
      (∀ g ∈ L, 2 ≤ g.length → 10 * g.flatten.length ≤ 12 * cfg.max_chunk_size) →
      ∀ g ∈ L ++ [st.cur], 2 ≤ g.length → 10 * g.flatten.length ≤ 12 * cfg.max_chunk_size := by
    intro L hL g hg h2
    rcases List.mem_append.mp hg with h | h
    · exact hL g h h2
    · rw [List.mem_singleton.mp h]
      exact hcur
  have hsingle : ∀ L : List (List Str),
      (∀ g ∈ L, 2 ≤ g.length → 10 * g.flatten.length ≤ 12 * cfg.max_chunk_size) →
      ∀ s : Str, ∀ g ∈ L ++ [[s]], 2 ≤ g.length →
        10 * g.flatten.length ≤ 12 * cfg.max_chunk_size := by
    intro L hL s g hg h2
    rcases List.mem_append.mp hg with h | h
    · exact hL g h h2
    · rw [List.mem_singleton.mp h] at h2
      simp at h2
  simp only [chunkStep, curStr] at *
  split_ifs with hA hB hC hD hE hF hG hH
  · -- oversize, non-empty accumulator: flush both
    refine ⟨by simp, ?_⟩
    intro g hg h2
    rcases List.mem_append.mp hg with h | h
    · exact hchunks g h h2
    · rcases List.mem_cons.mp h with h' | h'
      · rw [h']; exact hcur
      · rw [List.mem_singleton.mp h'] at h2; simp at h2
  · exact ⟨by simp, hsingle _ hchunks _⟩
  · -- would-exceed, accumulator at least min: flush, restart
    refine ⟨?_, hmemtwo _ hchunks⟩
    simp only [List.flatten_cons, List.flatten_nil, List.append_nil]
    omega
  · -- force-append within the 20% tolerance
    refine ⟨?_, hchunks⟩
    rw [flatten_append_singleton_length]
    simpa using hE
  · refine ⟨?_, hmemtwo _ hchunks⟩
    simp only [List.flatten_cons, List.flatten_nil, List.append_nil]
    omega
  · refine ⟨?_, hmemtwo _ hchunks⟩
    simp only [List.flatten_cons, List.flatten_nil, List.append_nil]
    omega
  · refine ⟨?_, hchunks⟩
    rw [flatten_append_singleton_length]
    omega
  · refine ⟨?_, hchunks⟩
    rw [flatten_append_singleton_length]
    omega
  · refine ⟨?_, hchunks⟩
    simp only [List.flatten_cons, List.flatten_nil, List.append_nil]
    omega

theorem chunkGroups_size (cfg : ChunkCfg) (oracle : Str → Str → Bool)
    (abbrs : List Str) (text : Str) :
    ∀ g ∈ chunkGroups cfg oracle abbrs text, 2 ≤ g.length →
      10 * g.flatten.length ≤ 12 * cfg.max_chunk_size := by
  unfold chunkGroups chunkFinal chunkRun
  have hinv := foldl_chunkStep_inv cfg oracle
    (fun st => 10 * (curStr st).length ≤ 12 * cfg.max_chunk_size ∧
      ∀ g ∈ st.chunks, 2 ≤ g.length → 10 * g.flatten.length ≤ 12 * cfg.max_chunk_size)
    (fun st sn h => chunkStep_size_inv cfg oracle st sn h)
    (split_sentences abbrs text) initState (by constructor <;> simp [initState, curStr])
  obtain ⟨hcur, hchunks⟩ := hinv
  split_ifs
  · intro g hg h2
    rcases List.mem_append.mp hg with h | h
    · exact hchunks g h h2
    · rw [List.mem_singleton.mp h]
      exact hcur
  · exact hchunks

/-! #### Dot-free text is left unchanged by the protection -/

theorem subC_noDot : ∀ (n : Nat) (s : Str), s.length ≤ n → ∀ b : Bool,
    (∀ c ∈ s, ¬c = '.') → subC b s = s.map .ch := by
  intro n
  induction n with
  | zero =>
    intro s hs b _
    rw [List.length_eq_zero.mp (Nat.le_zero.mp hs)]
    rfl
  | succ n ih =>
    intro s hs b hnd
    cases s with
    | nil => rfl
    | cons c cs =>
      have hm : tryMatch (c :: cs) = none := by
        cases htm : tryMatch (c :: cs) with
        | none => rfl
        | some pr =>
          obtain ⟨L, rest⟩ := pr
          obtain ⟨hseq, -, -, -⟩ := tryMatch_spec htm
          exfalso
          have hdm : '.' ∈ c :: cs := by
            rw [hseq]
            exact List.mem_append.mpr (Or.inr (by simp))
          exact hnd '.' hdm rfl
      rw [subC_cons_ch (Or.inr hm),
        ih cs (by simpa using hs) _ (fun x hx => hnd x (by simp [hx]))]
      rfl

theorem protect_nil_noDot (s : Str) (h : ∀ c ∈ s, ¬c = '.') :
    protect_abbreviations [] s = s := by
  show regexProtect s = s
  unfold regexProtect
  rw [subA_eq_subC le_rfl, subC_noDot s.length s le_rfl false h, render_map_ch]

/-! #### Whitespace-only inputs -/

theorem processParagraph_blank (sw : List (Str × Str)) (p : Str) (h : pyStrip p = []) :
    processParagraph sw p = sw ++ [([], ['\n'])] := by
  unfold processParagraph
  rw [if_pos h]

theorem foldl_procPar_blank : ∀ (ps : List Str), (∀ p ∈ ps, pyStrip p = []) →
    ∀ sw, ps.foldl processParagraph sw = sw ++ ps.map (fun _ => (([] : Str), ['\n'])) := by
  intro ps
  induction ps with
  | nil => intro _ sw; simp
  | cons p ps' ih =>
    intro h sw
    rw [List.foldl_cons, processParagraph_blank sw p (h p (by simp)),
      ih (fun q hq => h q (by simp [hq]))]
    simp

theorem split_sentences_all_ws (text : Str) (h : ∀ c ∈ text, pyIsSpace c = true) :
    split_sentences [] text = (pySplit '\n' text).map (fun _ => (([] : Str), ['\n'])) := by
  have hnd : ∀ c ∈ text, ¬c = '.' := by
    intro c hc he
    subst he
    exact absurd (h '.' hc) (by decide)
  show ((pySplit '\n' (protect_abbreviations [] text)).foldl processParagraph []).map
      (fun p => (restore_abbreviations p.1, p.2)) = _
  rw [protect_nil_noDot text hnd]
  have hblank : ∀ p ∈ pySplit '\n' text, pyStrip p = [] := by
    intro p hp
    exact pyStrip_of_all p (fun c hc => h c (pySplit_mem '\n' text p hp c hc))
  rw [foldl_procPar_blank _ hblank []]
  rw [List.nil_append, List.map_map]
  rfl

theorem flatten_replicate_singleton (c : Char) :
    ∀ i : Nat, (List.replicate i ([c] : Str)).flatten = List.replicate i c := by
  intro i
  induction i with
  | zero => rfl
  | succ i ih => simp [List.replicate_succ, ih]

theorem chunk_ws_fold (cfg : ChunkCfg) :
    ∀ (k i sc : Nat) (cl : List (Str × Str)), i + k ≤ cfg.max_chunk_size →
      ∃ sc' cl', (List.replicate k (([] : Str), ['\n'])).foldl
          (chunkStep cfg (fun _ _ => false)) ⟨[], List.replicate i ['\n'], sc, cl⟩ =
        ⟨[], List.replicate (i + k) ['\n'], sc', cl'⟩ := by
  intro k
  induction k with
  | zero => intro i sc cl _; exact ⟨sc, cl, by simp⟩
  | succ k ih =>
    intro i sc cl hik
    rw [List.replicate_succ, List.foldl_cons]
    have hcur : curStr ⟨[], List.replicate i ['\n'], sc, cl⟩ = List.replicate i '\n' := by
      simp [curStr, flatten_replicate_singleton]
    have hstep : chunkStep cfg (fun _ _ => false)
        ⟨[], List.replicate i ['\n'], sc, cl⟩ (([] : Str), ['\n']) =
        ⟨[], List.replicate (i + 1) ['\n'], sc + 1,
          if List.replicate i '\n' ≠ [] ∧
             cfg.min_chunk_size ≤ i ∧ 2 ≤ sc + 1 then
            cl ++ [(List.replicate i '\n', [])] else cl⟩ := by
      simp only [chunkStep, hcur]
      rw [if_neg (by simp; omega)]
      rw [if_neg (by simp [List.length_replicate]; omega)]
      by_cases hi : List.replicate i '\n' ≠ ([] : Str)
      · rw [if_pos hi]
        by_cases hg : cfg.min_chunk_size ≤ (List.replicate i '\n').length ∧ 2 ≤ sc + 1
        · rw [if_pos hg, if_neg (by simp)]
          rw [if_pos (⟨hi, by simpa [List.length_replicate] using hg.1, hg.2⟩ :
            List.replicate i '\n' ≠ [] ∧ cfg.min_chunk_size ≤ i ∧ 2 ≤ sc + 1)]
          simp only [List.nil_append, ← List.replicate_succ']
        · rw [if_neg hg]
          rw [if_neg (by
            intro hcon
            exact hg ⟨by simpa [List.length_replicate] using hcon.2.1, hcon.2.2⟩)]
          simp only [List.nil_append, ← List.replicate_succ']
      · rw [if_neg hi]
        have hi0 : i = 0 := by
          have := not_not.mp hi
          simpa using this
        subst hi0
        rw [if_neg (by simp)]
        simp
    rw [hstep]
    split_ifs with hcall
    · obtain ⟨sc', cl', hrest⟩ := ih (i + 1) (sc + 1)
        (cl ++ [(List.replicate i '\n', [])]) (by omega)
      refine ⟨sc', cl', ?_⟩
      rw [show i + 1 + k = i + (k + 1) from by omega] at hrest
      exact hrest
    · obtain ⟨sc', cl', hrest⟩ := ih (i + 1) (sc + 1) cl (by omega)
      refine ⟨sc', cl', ?_⟩
      rw [show i + 1 + k = i + (k + 1) from by omega] at hrest
      exact hrest

theorem map_const_replicate {α β : Type} (a : β) :
    ∀ l : List α, l.map (fun _ => a) = List.replicate l.length a := by
  intro l
  induction l with
  | nil => rfl
  | cons x xs ih => simp [List.replicate_succ, ih]

theorem sentence_based_chunk_ws (cfg : ChunkCfg) (text : Str)
    (hws : ∀ c ∈ text, pyIsSpace c = true)
    (hk : (pySplit '\n' text).length ≤ cfg.max_chunk_size) :
    sentence_based_chunk cfg (fun _ _ => false) [] text = [[]] := by
  unfold sentence_based_chunk chunkGroups chunkFinal chunkRun
  rw [split_sentences_all_ws text hws, map_const_replicate]
  obtain ⟨sc', cl', hfold⟩ :=
    chunk_ws_fold cfg (pySplit '\n' text).length 0 0 [] (by simpa using hk)
  rw [show initState = (⟨[], List.replicate 0 ['\n'], 0, []⟩ : AsmState) from rfl, hfold]
  have hk1 : 1 ≤ (pySplit '\n' text).length :=
    List.length_pos.mpr (pySplit_ne_nil _ _)
  have hcr : curStr ⟨[], List.replicate (0 + (pySplit '\n' text).length) ['\n'], sc', cl'⟩ =
      List.replicate (pySplit '\n' text).length '\n' := by
    simp [curStr, flatten_replicate_singleton]
  rw [if_pos (by
    rw [hcr]
    intro hcon
    have := congrArg List.length hcon
    rw [List.length_replicate] at this
    simp only [List.length_nil] at this
    omega)]
  show ([] ++ [List.replicate (0 + (pySplit '\n' text).length) ['\n']]).map
      (fun g : List Str => rstrip g.flatten) = [[]]
  simp only [List.nil_append, List.map_cons, List.map_nil]
  rw [flatten_replicate_singleton]
  rw [rstrip_of_all _ (fun c hc => by rw [List.eq_of_mem_replicate hc]; decide)]

/-! #### Round trip for well-behaved lines -/

theorem processParagraph_good (sw : List (Str × Str)) (L : Str)
    (hstrip : pyStrip L = L) (hlen : 20 ≤ L.length)
    (hterm : ∀ c ∈ L, isTerminator c = false) :
    processParagraph sw L = sw ++ [(L, ['\n'])] := by
  have hLne : L ≠ [] := by
    intro h
    rw [h] at hlen
    simp at hlen
  have hj : jStep sw L = (sw ++ [(L, [])], []) := by
    unfold jStep
    rw [hstrip]
    rw [if_neg (by rintro ⟨h1, -⟩; omega)]
    rw [if_pos hLne, if_neg (not_mem_headings_of_long hlen)]
  unfold processParagraph
  rw [if_neg (by rw [hstrip]; exact hLne)]
  rw [hstrip, splitTerm_no_term L hterm]
  show updateLast _ (jLoop ([], L).1 ([], L).2 sw) = _
  unfold jLoop
  show updateLast _ ((jStep ((jLoopPairs [] sw []).1) ((jLoopPairs [] sw []).2 ++ L)).1) = _
  show updateLast _ ((jStep sw ([] ++ L)).1) = _
  rw [List.nil_append, hj]
  show updateLast _ (sw ++ [(L, [])]) = _
  rw [updateLast_append_singleton]
  rw [show (if (L, ([] : Str)).1 ∈ HEADINGS then ((L, ([] : Str)).1, (L, ([] : Str)).2 ++ ['\n', '\n'])
      else ((L, ([] : Str)).1, (L, ([] : Str)).2 ++ ['\n'])) = (L, ['\n']) from by
    rw [if_neg (not_mem_headings_of_long hlen)]
    rfl]

theorem foldl_procPar_good : ∀ (lines : List Str),
    (∀ L ∈ lines, L = [] ∨ (pyStrip L = L ∧ 20 ≤ L.length ∧ ∀ c ∈ L, isTerminator c = false)) →
    ∀ sw, lines.foldl processParagraph sw = sw ++ lines.map (fun L => (L, ['\n'])) := by
  intro lines
  induction lines with
  | nil => intro _ sw; simp
  | cons L ls ih =>
    intro hg sw
    rw [List.foldl_cons]
    have hstep : processParagraph sw L = sw ++ [(L, ['\n'])] := by
      rcases hg L (by simp) with h | ⟨h1, h2, h3⟩
      · subst h
        exact processParagraph_blank sw [] rfl
      · exact processParagraph_good sw L h1 h2 h3
    rw [hstep, ih (fun x hx => hg x (by simp [hx]))]
    simp

theorem flatten_map_nl : ∀ ls : List Str, ls ≠ [] →
    (ls.map (fun L => L ++ ['\n'])).flatten = joinNL ls ++ ['\n'] := by
  intro ls
  induction ls with
  | nil => intro h; exact absurd rfl h
  | cons l ms ih =>
    intro _
    cases ms with
    | nil => simp [joinNL]
    | cons m ms' =>
      rw [joinNL_cons₂]
      rw [List.map_cons, List.flatten_cons, ih (by simp)]
      simp

/-! #### The oversize single-sentence scenario -/

theorem pySplit_no_sep (sep : Char) :
    ∀ s : Str, (∀ c ∈ s, ¬c = sep) → pySplit sep s = [s] := by
  intro s
  induction s with
  | nil => intro _; rfl
  | cons c cs ih =>
    intro h
    simp only [pySplit]
    rw [ih (fun x hx => h x (by simp [hx]))]
    dsimp only
    rw [if_neg (h c (by simp))]

theorem containsSub_head_notin {p₀ : Char} {pt s : Str}
    (h : ∀ c ∈ s, ¬c = p₀) : containsSub (p₀ :: pt) s = false := by
  induction s with
  | nil => rfl
  | cons c cs ih =>
    simp only [containsSub, Bool.or_eq_false_iff]
    constructor
    · cases hp : (p₀ :: pt).isPrefixOf (c :: cs) with
      | false => rfl
      | true => exact absurd (isPrefixOf_cons_iff.mp hp).1.symm (h c (by simp))
    · exact ih (fun x hx => h x (by simp [hx]))

theorem restore_replicate_a (n : Nat) :
    restore_abbreviations (List.replicate n 'a') = List.replicate n 'a' := by
  unfold restore_abbreviations
  refine replaceAll_of_not_contains sentinel ['.'] sentinel_ne_nil _ ?_
  rw [sentinel_eq]
  exact containsSub_head_notin
    (fun c hc => by rw [List.eq_of_mem_replicate hc]; decide)

theorem split_sentences_replicate_a (n : Nat) (h20 : 20 ≤ n) :
    split_sentences [] (List.replicate n 'a') = [(List.replicate n 'a', ['\n'])] := by
  have hmem : ∀ c ∈ List.replicate n 'a', c = 'a' :=
    fun c hc => List.eq_of_mem_replicate hc
  show ((pySplit '\n' (protect_abbreviations [] _)).foldl processParagraph []).map
      (fun p => (restore_abbreviations p.1, p.2)) = _
  rw [protect_nil_noDot _ (fun c hc => by rw [hmem c hc]; decide)]
  rw [pySplit_no_sep '\n' _ (fun c hc => by rw [hmem c hc]; decide)]
  rw [show ([List.replicate n 'a'] : List Str).foldl processParagraph [] =
      processParagraph [] (List.replicate n 'a') from rfl]
  rw [processParagraph_good [] (List.replicate n 'a')
    (pyStrip_nonws _ (fun c hc => by rw [hmem c hc]; decide))
    (by simpa using h20)
    (fun c hc => by rw [hmem c hc]; decide)]
  simp only [List.nil_append, List.map_cons, List.map_nil]
  rw [restore_replicate_a]

theorem chunk_replicate_a (max min : Nat) (oracle : Str → Str → Bool)
    (n : Nat) (h20 : 20 ≤ n) (hmax : max < n + 1) :
    sentence_based_chunk ⟨max, min⟩ oracle [] (List.replicate n 'a') =
      [List.replicate n 'a'] := by
  unfold sentence_based_chunk chunkGroups chunkFinal chunkRun
  rw [split_sentences_replicate_a n h20]
  rw [List.foldl_cons, List.foldl_nil]
  have hstep : chunkStep ⟨max, min⟩ oracle initState (List.replicate n 'a', ['\n']) =
      ⟨[[List.replicate n 'a' ++ ['\n']]], [], 1, []⟩ := by
    simp only [chunkStep, initState, curStr]
    rw [if_pos (by simpa using hmax)]
    rw [if_neg (by simp)]
    simp
  rw [hstep]
  rw [if_neg (by simp [curStr])]
  show ([[List.replicate n 'a' ++ ['\n']]] : List (List Str)).map
      (fun g : List Str => rstrip g.flatten) = _
  simp only [List.map_cons, List.map_nil, List.flatten_cons, List.flatten_nil,
    List.append_nil]
  rw [rstrip_append_ws _ '\n' (by decide)]
  rw [rstrip_nonws _ (fun c hc => by rw [List.eq_of_mem_replicate hc]; decide)]

/-- C1 (amended).  Concatenating `text + trailingWhitespace` over
`split_sentences` does NOT reproduce every document (the segmenter
strips whitespace, appends newlines, merges short fragments); for
documents whose every line is empty or is a stripped, terminator-free,
sentinel-free line of at least 20 characters, the concatenation yields
the document followed by one extra newline. -/
theorem c1_segment_concat_amended (text : Str)
    (hlines : ∀ L ∈ pySplit '\n' text, L = [] ∨
      (pyStrip L = L ∧ 20 ≤ L.length ∧ (∀ c ∈ L, isTerminator c = false) ∧
        containsSub sentinel L = false)) :
    concatSents (split_sentences [] text) = text ++ ['\n'] := by
  have hnodot : ∀ c ∈ text, ¬c = '.' := by
    intro c hc he
    subst he
    rw [← pySplit_join text] at hc
    rcases mem_joinNL _ '.' hc with h | ⟨L, hL, hdL⟩
    · exact absurd h (by decide)
    · rcases hlines L hL with h | ⟨-, -, h3, -⟩
      · subst h; simp at hdL
      · have := h3 '.' hdL
        exact absurd this (by decide)
  show concatSents (((pySplit '\n' (protect_abbreviations [] text)).foldl
      processParagraph []).map (fun p => (restore_abbreviations p.1, p.2))) = _
  rw [protect_nil_noDot text hnodot]
  rw [foldl_procPar_good _ (fun L hL =>
    (hlines L hL).imp id (fun h => ⟨h.1, h.2.1, h.2.2.1⟩)) []]
  rw [List.nil_append]
  have hres : ((pySplit '\n' text).map (fun L => (L, (['\n'] : Str)))).map
      (fun p => (restore_abbreviations p.1, p.2)) =
      (pySplit '\n' text).map (fun L => (L, ['\n'])) := by
    rw [List.map_map]
    refine List.map_congr_left ?_
    intro L hL
    show (restore_abbreviations L, (['\n'] : Str)) = (L, ['\n'])
    rcases hlines L hL with h | ⟨-, -, -, h4⟩
    · subst h; rfl
    · unfold restore_abbreviations
      rw [replaceAll_of_not_contains _ _ sentinel_ne_nil L h4]
  rw [hres]
  unfold concatSents
  rw [List.map_map]
  show ((pySplit '\n' text).map (fun L => L ++ ['\n'])).flatten = _
  rw [flatten_map_nl _ (pySplit_ne_nil _ _), pySplit_join]

/-- C1 witness: a concrete well-behaved one-line document. -/
theorem c1_witness :
    (∀ L ∈ pySplit '\n' "this line is long enough ok".toList, L = [] ∨
      (pyStrip L = L ∧ 20 ≤ L.length ∧ (∀ c ∈ L, isTerminator c = false) ∧
        containsSub sentinel L = false)) ∧
    concatSents (split_sentences [] "this line is long enough ok".toList) =
      "this line is long enough ok".toList ++ ['\n'] :=
  ⟨by decide, c1_segment_concat_amended _ (by decide)⟩

/-- C1 counterexample: for the one-character document `"a"` the
concatenation is `"a\n"`, not `"a"` — segmentation is not lossless. -/
theorem c1_counterexample :
    concatSents (split_sentences [] "a".toList) ≠ "a".toList := by decide

/-- C2 (amended).  Every chunk built from two or more sentences is
within the 20% tolerance `len ≤ max_chunk_size * 1.2` (embedded as
`10*len ≤ 12*max`); a single-sentence chunk exceeds `max_chunk_size`
only if that sentence alone does; and a single 5000-character sentence
with `max_chunk_size = 1000` produces exactly one chunk of length 5000.
(The original claim's stronger clause — that ANY chunk exceeding
`max_chunk_size` is a single oversize sentence — is false: the forced
append of line 312 can push a multi-sentence chunk up to 1.2×max.) -/
theorem c2_size_bound_amended :
    (∀ (cfg : ChunkCfg) (oracle : Str → Str → Bool) (abbrs : List Str) (text : Str),
      ∀ g ∈ chunkGroups cfg oracle abbrs text,
        (2 ≤ g.length → 10 * (rstrip g.flatten).length ≤ 12 * cfg.max_chunk_size) ∧
        (∀ s, g = [s] → cfg.max_chunk_size < (rstrip g.flatten).length →
          cfg.max_chunk_size < s.length)) ∧
    (∀ (min : Nat) (oracle : Str → Str → Bool),
      sentence_based_chunk ⟨1000, min⟩ oracle [] (List.replicate 5000 'a') =
        [List.replicate 5000 'a']) := by
  constructor
  · intro cfg oracle abbrs text g hg
    constructor
    · intro h2
      have h1 := chunkGroups_size cfg oracle abbrs text g hg h2
      have h3 := rstrip_length_le g.flatten
      omega
    · intro s hs hex
      have h3 := rstrip_length_le g.flatten
      have h4 : g.flatten = s := by rw [hs]; simp
      rw [h4] at h3 hex
      omega
  · intro min oracle
    exact chunk_replicate_a 1000 min oracle 5000 (by omega) (by omega)

/-- C2 witness: at `max = min = 40`, the two-sentence document below is
forced into one chunk of 43 characters, within the 20% tolerance. -/
theorem c2_witness :
    (["abcdefgh ijklmnopqrs!".toList, "tuvwxyzabc defghijklm!\n".toList] ∈
      chunkGroups ⟨40, 40⟩ (fun _ _ => false) []
        "abcdefgh ijklmnopqrs! tuvwxyzabc defghijklm!".toList) ∧
    10 * (rstrip (["abcdefgh ijklmnopqrs!".toList,
        "tuvwxyzabc defghijklm!\n".toList] : List Str).flatten).length ≤ 12 * 40 :=
  ⟨by decide,
    ((c2_size_bound_amended.1 ⟨40, 40⟩ (fun _ _ => false) []
      "abcdefgh ijklmnopqrs! tuvwxyzabc defghijklm!".toList _ (by decide)).1 (by decide))⟩

/-- C2 counterexample: a chunk of 43 characters exceeds
`max_chunk_size = 40` although it consists of TWO sentences (the forced
append of line 312), refuting the claim that a chunk exceeds
`max_chunk_size` only when it is a single oversize sentence. -/
theorem c2_counterexample :
    chunkGroups ⟨40, 40⟩ (fun _ _ => false) []
        "abcdefgh ijklmnopqrs! tuvwxyzabc defghijklm!".toList =
      [["abcdefgh ijklmnopqrs!".toList, "tuvwxyzabc defghijklm!\n".toList]] ∧
    sentence_based_chunk ⟨40, 40⟩ (fun _ _ => false) []
        "abcdefgh ijklmnopqrs! tuvwxyzabc defghijklm!".toList =
      ["abcdefgh ijklmnopqrs!tuvwxyzabc defghijklm!".toList] ∧
    40 < "abcdefgh ijklmnopqrs!tuvwxyzabc defghijklm!".toList.length := by decide

/-- C3 (amended).  For the input `"Dr. Smith went home. He was tired."`
the segmenter yields ONE sentence — the whole text with a trailing
newline — because the lowercase-word fallback pattern `[a-z]+\.` also
protects the sentence-final periods `home.` and `tired.`, so no
terminator survives; the assembler (with `min=5`, `max=1000`, any
oracle) then yields exactly one chunk equal to the full text. -/
theorem c3_scenario_amended :
    split_sentences [] "Dr. Smith went home. He was tired.".toList =
      [("Dr. Smith went home. He was tired.".toList, ['\n'])] ∧
    ∀ oracle : Str → Str → Bool,
      sentence_based_chunk ⟨1000, 5⟩ oracle []
          "Dr. Smith went home. He was tired.".toList =
        ["Dr. Smith went home. He was tired.".toList] := by
  refine ⟨by decide, ?_⟩
  intro oracle
  rfl

/-- C3 counterexample: the segmenter does NOT yield the two claimed
sentences `"Dr. Smith went home."` and `" He was tired."`. -/
theorem c3_counterexample :
    (split_sentences [] "Dr. Smith went home. He was tired.".toList).map Prod.fst ≠
      ["Dr. Smith went home.".toList, " He was tired.".toList] := by decide

/-- C4 (amended).  `sentence_based_chunk` always returns a non-empty
chunk list (for every input, configuration, oracle and abbreviation
set).  The claim's coverage clause is false — characters can be
dropped, so concatenating the chunks need not reconstruct the
document (see the counterexample). -/
theorem c4_nonempty_amended (cfg : ChunkCfg) (oracle : Str → Str → Bool)
    (abbrs : List Str) (text : Str) :
    sentence_based_chunk cfg oracle abbrs text ≠ [] :=
  sentence_based_chunk_ne_nil cfg oracle abbrs text

/-- C4 counterexample: for the document `"a\n"` the single emitted chunk
is `"a"`; the newline appears in no chunk and the concatenation of all
chunks does not reconstruct the document. -/
theorem c4_counterexample :
    sentence_based_chunk ⟨2000, 300⟩ (fun _ _ => false) [] "a\n".toList = ["a".toList] ∧
    (sentence_based_chunk ⟨2000, 300⟩ (fun _ _ => false) [] "a\n".toList).flatten ≠
      "a\n".toList := by decide

/-- C5 (amended).  Any `requests.exceptions.RequestException` —
connection failure, timeout, HTTP error status, or an undecodable
response body — makes `is_topic_shift` return `false` (same topic)
without propagating an error; but a decodable JSON body that lacks the
expected `choices[0].message.content` structure raises an uncaught
`KeyError` that DOES escape to the caller. -/
theorem c5_failure_policy_amended :
    ∀ current_text new_sentence : Str,
      is_topic_shift .requestFailure current_text new_sentence = .ok false := by
  intro c n
  rfl

/-- C5 counterexample: a well-formed-transport but structurally
malformed response propagates an exception instead of returning
`false`. -/
theorem c5_counterexample :
    is_topic_shift .okMissingStructure "alpha".toList "beta".toList =
      .error .keyError := by rfl

/-- C6 (amended).  With the abbreviation vocabulary empty (the guard's
documented degraded mode; the vocabulary file is external data),
`restore(protect(x)) = x` holds for every string that does not already
contain the sentinel `__PROTECTED_DOT__`, and `protect` is idempotent
on ALL strings.  The unrestricted round-trip is false — see the
counterexample. -/
theorem c6_roundtrip_amended :
    (∀ x : Str, containsSub sentinel x = false →
      restore_abbreviations (protect_abbreviations [] x) = x) ∧
    (∀ x : Str, protect_abbreviations [] (protect_abbreviations [] x) =
      protect_abbreviations [] x) := by
  constructor
  · intro x hx
    show replaceAll sentinel ['.'] (regexProtect x) = x
    unfold regexProtect
    rw [subA_eq_subC le_rfl]
    exact restore_subC x.length x le_rfl false hx
  · intro x
    exact regexProtect_idem x

/-- C6 witness: the round trip on a concrete sentence with protected
abbreviation and sentence dots. -/
theorem c6_witness :
    containsSub sentinel "Dr. Smith went home.".toList = false ∧
    restore_abbreviations (protect_abbreviations [] "Dr. Smith went home.".toList) =
      "Dr. Smith went home.".toList :=
  ⟨by decide, c6_roundtrip_amended.1 _ (by decide)⟩

/-- C6 counterexample: a string already containing the sentinel is not
restored to itself (`restore(protect(x))` collapses it to `"."`). -/
theorem c6_counterexample :
    restore_abbreviations (protect_abbreviations [] "__PROTECTED_DOT__".toList) ≠
      "__PROTECTED_DOT__".toList := by decide

/-- C7 (amended).  Neither the constructor nor the chunking entry
points validate the configuration: with `min_chunk_size >
max_chunk_size` the engine is built and chunking proceeds normally,
still producing a non-empty chunk list; no fatal configuration error
is ever reported. -/
theorem c7_no_validation_amended (cfg : ChunkCfg) (oracle : Str → Str → Bool)
    (abbrs : List Str) (text : Str)
    (_hbad : cfg.max_chunk_size < cfg.min_chunk_size) :
    sentence_based_chunk cfg oracle abbrs text ≠ [] :=
  sentence_based_chunk_ne_nil cfg oracle abbrs text

/-- C7 witness: chunking with `max = 5 < min = 10` still yields chunks. -/
theorem c7_witness :
    (5 : Nat) < 10 ∧
    sentence_based_chunk ⟨5, 10⟩ (fun _ _ => false) [] "x".toList ≠ [] :=
  ⟨by decide, c7_no_validation_amended ⟨5, 10⟩ (fun _ _ => false) [] "x".toList (by decide)⟩

/-- C7 counterexample: with the inconsistent pair `max = 5 < min = 10`
the engine processes the document to completion and emits a chunk —
no fatal configuration error precedes processing. -/
theorem c7_counterexample :
    sentence_based_chunk ⟨5, 10⟩ (fun _ _ => false) []
        "hello there everyone today".toList =
      ["hello there everyone today".toList] := by decide

/-- C8 (amended).  Every `is_topic_shift` call during assembly passes a
non-empty accumulator of length at least `min_chunk_size` as its first
argument (and the sentence count since the last reset is at least 2,
i.e. at least one sentence is already in the accumulator); the oracle
CAN however be consulted when the accumulator holds exactly one
sentence — the first after a reset — contrary to the claim's final
clause. -/
theorem c8_oracle_gating_amended (cfg : ChunkCfg) (oracle : Str → Str → Bool)
    (abbrs : List Str) (text : Str) :
    ∀ e ∈ chunkCalls cfg oracle abbrs text,
      cfg.min_chunk_size ≤ e.1.length ∧ e.1 ≠ [] :=
  chunkCalls_bound cfg oracle abbrs text

/-- C8 witness: a concrete trace entry satisfies the gating bound. -/
theorem c8_witness :
    (("Hello world number one!".toList, "Hello world number two!".toList) ∈
      chunkCalls ⟨1000, 5⟩ (fun _ _ => true) []
        "Hello world number one! Hello world number two! Hello world number thr!".toList) ∧
    (5 ≤ "Hello world number one!".toList.length ∧
      "Hello world number one!".toList ≠ []) :=
  ⟨by decide, c8_oracle_gating_amended ⟨1000, 5⟩ (fun _ _ => true) []
    "Hello world number one! Hello world number two! Hello world number thr!".toList
    ("Hello world number one!".toList, "Hello world number two!".toList) (by decide)⟩

/-- C8 counterexample: with an always-true oracle the second recorded
call happens right after a reset, with the accumulator holding exactly
the single sentence `"Hello world number two!"` — the oracle IS called
when the accumulator holds only the first sentence after a reset. -/
theorem c8_counterexample :
    chunkCalls ⟨1000, 5⟩ (fun _ _ => true) []
        "Hello world number one! Hello world number two! Hello world number thr!".toList =
      [("Hello world number one!".toList, "Hello world number two!".toList),
       ("Hello world number two!".toList, "Hello world number thr!".toList)] := by decide

/-- C9 (confirmed).  `detect_language` returns `"en"` when the text has
no letter characters (Latin, hiragana, katakana, CJK); otherwise it
returns `"ja"` exactly when the ratio of Japanese characters to letter
characters is at least 3/10, and `"en"` otherwise.  (It is a pure
function of its argument by construction.) -/
theorem c9_detect_language (text : Str) :
    (letterCount text = 0 → detect_language text = "en".toList) ∧
    (0 < letterCount text →
      (detect_language text = "ja".toList ↔
        (3 : ℚ) / 10 ≤ (japaneseCount text : ℚ) / (letterCount text : ℚ))) ∧
    (0 < letterCount text →
      (detect_language text = "en".toList ↔
        (japaneseCount text : ℚ) / (letterCount text : ℚ) < (3 : ℚ) / 10)) := by
  have hratio : 0 < letterCount text →
      ((3 : ℚ) / 10 ≤ (japaneseCount text : ℚ) / (letterCount text : ℚ) ↔
        3 * letterCount text ≤ 10 * japaneseCount text) := by
    intro h
    have htot : (0 : ℚ) < (letterCount text : ℚ) := by exact_mod_cast h
    rw [div_le_div_iff₀ (by norm_num) htot]
    constructor
    · intro hq
      have : (3 : ℚ) * letterCount text ≤ (japaneseCount text : ℚ) * 10 := hq
      have h2 : (3 * letterCount text : ℚ) ≤ (10 * japaneseCount text : ℚ) := by
        linarith
      exact_mod_cast h2
    · intro hn
      have h2 : (3 * letterCount text : ℚ) ≤ (10 * japaneseCount text : ℚ) := by
        exact_mod_cast hn
      push_cast at h2
      linarith
  refine ⟨?_, ?_, ?_⟩
  · intro h
    unfold detect_language
    rw [if_pos h]
  · intro h
    rw [hratio h]
    unfold detect_language
    rw [if_neg (by omega)]
    by_cases hcmp : 3 * letterCount text ≤ 10 * japaneseCount text
    · rw [if_pos hcmp]
      simp [hcmp]
    · rw [if_neg hcmp]
      constructor
      · intro hja
        exact absurd hja (by decide)
      · intro hc
        exact absurd hc hcmp
  · intro h
    have := hratio h
    unfold detect_language
    rw [if_neg (by omega)]
    by_cases hcmp : 3 * letterCount text ≤ 10 * japaneseCount text
    · rw [if_pos hcmp]
      constructor
      · intro hja
        exact absurd hja (by decide)
      · intro hlt
        exact absurd (this.mpr hcmp) (not_le.mpr hlt)
    · rw [if_neg hcmp]
      constructor
      · intro _
        rw [← not_le, this]
        exact hcmp
      · intro _
        rfl

/-- C9 witness: a mixed text with one Japanese and two Latin letters is
classified as Japanese (ratio 1/3 ≥ 3/10). -/
theorem c9_witness :
    0 < letterCount "あbc".toList ∧ detect_language "あbc".toList = "ja".toList :=
  ⟨by decide,
    ((c9_detect_language "あbc".toList).2.1 (by decide)).mpr (by
      have h1 : japaneseCount "あbc".toList = 1 := by decide
      have h2 : letterCount "あbc".toList = 3 := by decide
      rw [h1, h2]
      norm_num)⟩

/-- C10 (amended).  Every chunk string emitted by
`sentence_based_chunk` is right-stripped (no trailing whitespace); a
whitespace-only input yields a single empty-string chunk PROVIDED the
number of lines does not exceed `max_chunk_size` (and the oracle is the
conservative always-false one) — otherwise the accumulated newlines are
flushed into SEVERAL empty-string chunks, see the counterexample. -/
theorem c10_rstrip_amended :
    (∀ (cfg : ChunkCfg) (oracle : Str → Str → Bool) (abbrs : List Str) (text : Str),
      ∀ c ∈ sentence_based_chunk cfg oracle abbrs text, rstrip c = c) ∧
    (∀ (cfg : ChunkCfg) (text : Str), (∀ ch ∈ text, pyIsSpace ch = true) →
      (pySplit '\n' text).length ≤ cfg.max_chunk_size →
      sentence_based_chunk cfg (fun _ _ => false) [] text = [[]]) := by
  constructor
  · intro cfg oracle abbrs text c hc
    unfold sentence_based_chunk at hc
    rw [List.mem_map] at hc
    obtain ⟨g, -, hg⟩ := hc
    rw [← hg]
    exact rstrip_idem _
  · intro cfg text h1 h2
    exact sentence_based_chunk_ws cfg text h1 h2

/-- C10 witness: the chunk of `"a \n"` carries no trailing whitespace,
and the whitespace-only input `" \n"` gives one empty chunk. -/
theorem c10_witness :
    ("a".toList ∈ sentence_based_chunk ⟨2000, 300⟩ (fun _ _ => false) [] "a \n".toList ∧
      rstrip "a".toList = "a".toList) ∧
    ((∀ ch ∈ " \n".toList, pyIsSpace ch = true) ∧
      sentence_based_chunk ⟨2000, 300⟩ (fun _ _ => false) [] " \n".toList = [[]]) :=
  ⟨⟨by decide, c10_rstrip_amended.1 ⟨2000, 300⟩ (fun _ _ => false) [] "a \n".toList
      "a".toList (by decide)⟩,
   ⟨by decide, c10_rstrip_amended.2 ⟨2000, 300⟩ " \n".toList (by decide) (by decide)⟩⟩

/-- C10 counterexample: with `max_chunk_size = 2` the whitespace-only
input `"\n\n\n"` produces TWO empty-string chunks, not a single one. -/
theorem c10_counterexample :
    sentence_based_chunk ⟨2, 2⟩ (fun _ _ => false) [] "\n\n\n".toList = [[], []] := by
  decide

end LocalTranslation
